import Mathlib

/-!
# Verification of the Victoria 2 save-file parser (`src/parser.py`)

Shallow embedding of the Paradox-script parser from `parser.py`:

* `SaveParser` becomes a family of fuel-indexed functions over the remaining
  input, represented as a `List Char` suffix (the Python cursor `pos` is the
  length consumed so far).  `none` means the fuel ran out; the Python loops
  have no other exit, so "`none` for every fuel" models divergence.
* `fast_extract_sections` (restricted to a single section name, as used by
  `extract_named_section`) and `iterate_country_sections` are embedded with
  the regex anchors modelled as explicit line-start scanners and the brace
  counter as `braceAux`.
* Python `int(...)` / `float(...)` on tokens are modelled by `pyInt?` /
  `pyFloat?` (sign, digit runs with single underscores between digits,
  decimal point, exponent); floats are represented exactly as rationals.
  `str.lower()` is modelled on ASCII letters, which is equivalent for the
  only comparisons performed (`== 'yes'`, `== 'no'`).
-/

namespace V2

abbrev Txt := List Char

/-- Whitespace characters skipped by `SaveParser._skip_whitespace`. -/
def isWsCh (c : Char) : Bool :=
  c = ' ' ∨ c = '\t' ∨ c = '\n' ∨ c = '\r'

/-- Token-delimiter characters of `SaveParser._read_token` (`' \t\n\r={}#'`). -/
def isDelim (c : Char) : Bool :=
  isWsCh c ∨ c = '=' ∨ c = '{' ∨ c = '}' ∨ c = '#'

/-- `SaveParser._skip_whitespace`: skip whitespace and `#`-to-newline
comments.  The `Bool` flag is `true` while inside a comment. -/
def skipWsAux : Bool → Txt → Txt
  | _, [] => []
  | false, c :: cs =>
    if isWsCh c then skipWsAux false cs
    else if c = '#' then skipWsAux true cs
    else c :: cs
  | true, c :: cs =>
    if c = '\n' then skipWsAux false cs else skipWsAux true cs

def skipWs (l : Txt) : Txt := skipWsAux false l

/-- `SaveParser._read_token`: maximal run of non-delimiter characters. -/
def readTokenAux : Txt → List Char × Txt
  | [] => ([], [])
  | c :: cs =>
    if isDelim c then ([], c :: cs)
    else
      let (t, r) := readTokenAux cs
      (c :: t, r)

def readToken (l : Txt) : String × Txt :=
  let (t, r) := readTokenAux l
  (String.mk t, r)

/-- Body of `SaveParser._read_quoted_string` after the opening quote:
collect characters up to the next `"`; at end of input return everything
collected (tolerant behaviour). -/
def readQuotedAux : Txt → List Char × Txt
  | [] => ([], [])
  | c :: cs =>
    if c = '"' then ([], cs)
    else
      let (s, r) := readQuotedAux cs
      (c :: s, r)

/-- `SaveParser._read_quoted_string`, called with the cursor on the opening
quote (the Python method unconditionally skips one character first). -/
def readQuoted : Txt → String × Txt
  | [] => ("", [])
  | _ :: cs =>
    let (s, r) := readQuotedAux cs
    (String.mk s, r)

/-! ## Scalar conversion (`int(token)` / `float(token)` / yes / no) -/

def isDigitCh (c : Char) : Bool := '0' ≤ c ∧ c ≤ '9'

def digitVal (c : Char) : Nat := c.toNat - '0'.toNat

def natOfDigits (l : List Char) : Nat :=
  l.foldl (fun acc c => 10 * acc + digitVal c) 0

/-- Continue a digit run in which single underscores may appear between
digits (CPython's numeric-literal rule for `int()`/`float()`).  Returns the
digits of the run and the unconsumed rest; `none` on a misplaced
underscore.  The caller has already consumed at least one digit. -/
def digRunAux : Txt → Option (List Char × Txt)
  | [] => some ([], [])
  | '_' :: cs =>
    match cs with
    | [] => none
    | c :: cs' =>
      if isDigitCh c then
        match digRunAux cs' with
        | none => none
        | some (ds, r) => some (c :: ds, r)
      else none
  | c :: cs =>
    if isDigitCh c then
      match digRunAux cs with
      | none => none
      | some (ds, r) => some (c :: ds, r)
    else some ([], c :: cs)

/-- A non-empty digit run (with optional interior underscores). -/
def digRun : Txt → Option (List Char × Txt)
  | [] => none
  | c :: cs =>
    if isDigitCh c then
      match digRunAux cs with
      | none => none
      | some (ds, r) => some (c :: ds, r)
    else none

/-- Python `int(token)`: optional sign, then a digit run covering the whole
string.  (Surrounding unicode whitespace, which cannot occur in tokens of
this format, is not modelled.) -/
def pyInt? (s : String) : Option Int :=
  let core : Txt → Option Nat := fun l =>
    match digRun l with
    | some (ds, []) => some (natOfDigits ds)
    | _ => none
  match s.data with
  | '+' :: rest => (core rest).map (fun n => (n : Int))
  | '-' :: rest => (core rest).map (fun n => -(n : Int))
  | l => (core l).map (fun n => (n : Int))

/-- `10 ^ e` as a rational, for an integer exponent. -/
def ratPow10 (e : Int) : Rat :=
  if 0 ≤ e then ((10 : Rat) ^ e.toNat) else 1 / ((10 : Rat) ^ (-e).toNat)

/-- Mantissa of a float literal: `digits [. digits]` or `. digits`, with at
least one digit overall.  Returns (all mantissa digits, number of fraction
digits, rest). -/
def floatMantissa (l : Txt) : Option (List Char × Nat × Txt) :=
  match digRun l with
  | some (ip, r) =>
    match r with
    | '.' :: r' =>
      match digRun r' with
      | some (fp, r'') => some (ip ++ fp, fp.length, r'')
      | none =>
        match r' with
        | '_' :: _ => none
        | _ => some (ip, 0, r')
    | _ => some (ip, 0, r)
  | none =>
    match l with
    | '.' :: r' =>
      match digRun r' with
      | some (fp, r'') => some (fp, fp.length, r'')
      | none => none
    | _ => none

/-- Optional exponent `([eE] sign? digits)`; the rest must be empty. -/
def floatExp (l : Txt) : Option Int :=
  match l with
  | [] => some 0
  | e :: r =>
    if e = 'e' ∨ e = 'E' then
      let (neg, r') :=
        match r with
        | '+' :: r' => (false, r')
        | '-' :: r' => (true, r')
        | _ => (false, r)
      match digRun r' with
      | some (ds, []) => some (if neg then -(natOfDigits ds : Int) else (natOfDigits ds : Int))
      | _ => none
    else none

/-- Python `float(token)` for tokens (the parser only attempts it when the
token contains `'.'`, so the `inf`/`nan` spellings are unreachable and are
not modelled).  The value is represented exactly as a rational; the claims
never depend on IEEE rounding. -/
def pyFloat? (s : String) : Option Rat :=
  let (neg, l) :=
    match s.data with
    | '+' :: rest => (false, rest)
    | '-' :: rest => (true, rest)
    | l => (false, l)
  match floatMantissa l with
  | none => none
  | some (ds, fracLen, r) =>
    match floatExp r with
    | none => none
    | some e =>
      let mag : Rat := (natOfDigits ds : Rat) * ratPow10 (e - (fracLen : Int))
      some (if neg then -mag else mag)

/-- ASCII lower-casing; equivalent to Python `str.lower()` for the only uses
(`token.lower() == 'yes'/'no'`), since `'Y'` is the only character whose
lower-case form is `'y'`, etc. -/
def asciiLowerCh (c : Char) : Char :=
  if 'A' ≤ c ∧ c ≤ 'Z' then Char.ofNat (c.toNat + 32) else c

def asciiLower (s : String) : String := String.mk (s.data.map asciiLowerCh)

/-! ## The Value tree -/

/-- Parsed values: Python `str` / `int` / `float` / `bool` / `dict` /
`list`.  Dicts are insertion-ordered association lists, matching Python
dict iteration order. -/
inductive Value where
  | str (s : String)
  | int (n : Int)
  | float (q : Rat)
  | bool (b : Bool)
  | dict (entries : List (String × Value))
  | list (items : List Value)

/-- Unquoted-token conversion in `SaveParser._parse_value`: try float when
the token contains a dot, otherwise int; on `ValueError` fall back to
yes/no booleans and finally to the raw string. -/
def classify (tok : String) : Value :=
  let numeric : Option Value :=
    if tok.data.any (fun c => c = '.') then (pyFloat? tok).map Value.float
    else (pyInt? tok).map Value.int
  match numeric with
  | some v => v
  | none =>
    if asciiLower tok = "yes" then Value.bool true
    else if asciiLower tok = "no" then Value.bool false
    else Value.str tok

/-- Value stored when a key repeats (`SaveParser._parse_dict`): append if
the existing value is already a list, otherwise start `[old, new]`. -/
def valueMerge (old new : Value) : Value :=
  match old with
  | Value.list xs => Value.list (xs ++ [new])
  | _ => Value.list [old, new]

def lookupD (acc : List (String × Value)) (k : String) : Option Value :=
  match acc with
  | [] => none
  | (k', v) :: rest => if k' = k then some v else lookupD rest k

/-- One `result[key] = ...` step of `SaveParser._parse_dict`, including the
duplicate-key merge. -/
def insertDict (acc : List (String × Value)) (k : String) (v : Value) :
    List (String × Value) :=
  if acc.any (fun e => e.1 = k) then
    acc.map (fun e => if e.1 = k then (e.1, valueMerge e.2 v) else e)
  else acc ++ [(k, v)]

/-! ## The recursive-descent parser (fuel-indexed) -/

/-- Lookahead of `SaveParser._parse_block_contents` deciding list vs dict,
run on the already-whitespace-skipped suffix.  Uses only the tokenizer, so
it needs no fuel. -/
def lookIsList (la : Txt) : Bool :=
  if la.head? = some '"' then
    let (_, r) := readQuoted la
    ¬ ((skipWs r).head? = some '=')
  else if la.head? = some '{' then true
  else if la.head? = none ∨ la.head? = some '}' then false
  else
    let (_, r) := readToken la
    ¬ ((skipWs r).head? = some '=')

mutual

/-- `SaveParser._parse_value`. -/
def parseValue : Nat → Txt → Option (Value × Txt)
  | 0, _ => none
  | f + 1, l =>
    let l' := skipWs l
    if l'.head? = some '"' then
      let (s, r) := readQuoted l'
      some (Value.str s, r)
    else if l'.head? = some '{' then parseBlock f l'
    else
      let (tok, r) := readToken l'
      some (classify tok, r)

/-- `SaveParser._parse_block`, entered with the cursor on `{`. -/
def parseBlock : Nat → Txt → Option (Value × Txt)
  | 0, _ => none
  | f + 1, l =>
    match parseBlockContents f (skipWs (l.drop 1)) with
    | none => none
    | some (v, r) =>
      let r' := skipWs r
      if r'.head? = some '}' then some (v, r'.drop 1) else some (v, r')

/-- `SaveParser._parse_block_contents`: look ahead, then re-parse from the
saved position as a dict or list. -/
def parseBlockContents : Nat → Txt → Option (Value × Txt)
  | 0, _ => none
  | f + 1, l =>
    let la := skipWs l
    if la.head? = some '}' then some (Value.dict [], la)
    else if lookIsList la then
      match parseList f l with
      | none => none
      | some (vs, r) => some (Value.list vs, r)
    else
      match parseDict f l [] with
      | none => none
      | some (d, r) => some (Value.dict d, r)

/-- `SaveParser._parse_list`. -/
def parseList : Nat → Txt → Option (List Value × Txt)
  | 0, _ => none
  | f + 1, l =>
    let l' := skipWs l
    if l'.head? = none ∨ l'.head? = some '}' then some ([], l')
    else
      match parseValue f l' with
      | none => none
      | some (v, r) =>
        match parseList f r with
        | none => none
        | some (vs, r') => some (v :: vs, r')

/-- `SaveParser._parse_dict` (the accumulator is the dict built so far). -/
def parseDict : Nat → Txt → List (String × Value) →
    Option (List (String × Value) × Txt)
  | 0, _, _ => none
  | f + 1, l, acc =>
    let l' := skipWs l
    if l'.head? = none ∨ l'.head? = some '}' then some (acc, l')
    else
      let (k, r) := if l'.head? = some '"' then readQuoted l' else readToken l'
      if k = "" then some (acc, r)
      else
        let r' := skipWs r
        if r'.head? = some '=' then
          match parseValue f (r'.drop 1) with
          | none => none
          | some (v, r'') => parseDict f r'' (insertDict acc k v)
        else some (acc, r')

end

/-- `SaveParser.parse` / `parse_document`: the whole input as an implicit
root block. `none` models a run that has not finished within `fuel` steps. -/
def parseDocument (fuel : Nat) (s : String) : Option Value :=
  (parseBlockContents fuel s.data).map (fun p => p.1)

/-! ## Anchored section extraction (`fast_extract_sections`,
`iterate_country_sections`) -/

/-- The brace-counting loop shared by the extractors: consume characters
(starting just after the opening `{`, with count `cnt`), stopping after the
brace that brings the count to zero, or at end of input.  Returns
(consumed characters, rest). -/
def braceAux : Nat → Txt → Txt × Txt
  | _, [] => ([], [])
  | cnt, c :: cs =>
    let cnt' := if c = '{' then cnt + 1 else if c = '}' then cnt - 1 else cnt
    if cnt' = 0 then ([c], cs)
    else
      let (a, b) := braceAux cnt' cs
      (c :: a, b)

/-- Whitespace skipped between `name=` and the value in
`fast_extract_sections` (only `' \t\n\r'`, no comment handling there). -/
def isPyWs (c : Char) : Bool :=
  c = ' ' ∨ c = '\t' ∨ c = '\n' ∨ c = '\r'

/-- `startsWith pat l`: `pat` is a prefix of `l`. -/
def startsWith : Txt → Txt → Bool
  | [], _ => true
  | _ :: _, [] => false
  | p :: ps, c :: cs => p = c ∧ startsWith ps cs

/-- First line-anchored occurrence of `pat` (the regex
`re.search('^pat', text, re.MULTILINE)`); returns the suffix after the
match.  `atLS` is true when the scan position is at the start of a line. -/
def findAnchor (pat : Txt) : Bool → Txt → Option Txt
  | atLS, [] =>
    if atLS ∧ startsWith pat [] then some (([] : Txt).drop pat.length) else none
  | atLS, c :: cs =>
    if atLS ∧ startsWith pat (c :: cs) then some ((c :: cs).drop pat.length)
    else findAnchor pat (c = '\n') cs

/-- `extract_named_section(t, name)`, i.e. `fast_extract_sections` for a
single section name (minus file I/O): locate the first line-anchored
`name=`, skip whitespace, slice a brace-balanced block (or one line for a
simple value) and parse the slice with `SaveParser.parse`. -/
def fastExtract (fuel : Nat) (t : String) (name : String) : Option Value :=
  match findAnchor (name.data ++ ['=']) true t.data with
  | none => none
  | some afterEq =>
    let rest := afterEq.dropWhile isPyWs
    if rest.head? = none then none
    else if rest.head? = some '{' then
      let sect := '{' :: (braceAux 1 (rest.drop 1)).1
      (parseBlockContents fuel sect).map (fun p => p.1)
    else
      let line := rest.takeWhile (fun c => ¬ (c = '\n'))
      (parseBlockContents fuel line).map (fun p => p.1)

def isUpperCh (c : Char) : Bool := 'A' ≤ c ∧ c ≤ 'Z'

/-- `optUpper o` : the optional character is an uppercase ASCII letter. -/
def optUpper (o : Option Char) : Bool :=
  match o with
  | some a => isUpperCh a
  | none => false

/-- Does the suffix start with a country-record match of the regex
`([A-Z]{3})=\n\{`? -/
def countryShape (t : Txt) : Bool :=
  optUpper t.head? ∧ optUpper (t.drop 1).head? ∧ optUpper (t.drop 2).head? ∧
  (t.drop 3).head? = some '=' ∧ (t.drop 4).head? = some '\n' ∧ (t.drop 5).head? = some '{'

/-- `iterate_country_sections` (minus file I/O): scan for line-anchored
matches of `^([A-Z]{3})=\n\{`, slice each brace-balanced block starting at
the `{`, parse it, and yield `(tag, parsed value)` pairs in document
order.  `re.finditer` resumes searching at the end of each 6-character
match, while this scan advances one character at a time; the two agree
because no line-anchored match can begin inside a previous match (the only
line start there is the `{` after the newline, which fails the pattern). -/
def iterAux (fuel : Nat) : Bool → Txt → List (String × Option Value)
  | _, [] => []
  | atLS, x :: xs =>
    if atLS ∧ countryShape (x :: xs) then
      let sect := '{' :: (braceAux 1 (xs.drop 5)).1
      (String.mk ((x :: xs).take 3), (parseBlockContents fuel sect).map (fun p => p.1)) ::
        iterAux fuel (x = '\n') xs
    else iterAux fuel (x = '\n') xs

def iterCountry (fuel : Nat) (t : String) : List (String × Option Value) :=
  iterAux fuel true t.data

/-! ## Raw key/value pairs of a dict block

`parsePairs` follows `_parse_dict` step for step but records the raw
`key=value` pairs in encounter order instead of folding them through the
duplicate-key merge; `parseDict_eq_pairs` below relates the two. -/

def parsePairs : Nat → Txt → Option (List (String × Value) × Txt)
  | 0, _ => none
  | f + 1, l =>
    let l' := skipWs l
    if l'.head? = none ∨ l'.head? = some '}' then some ([], l')
    else
      let (k, r) := if l'.head? = some '"' then readQuoted l' else readToken l'
      if k = "" then some ([], r)
      else
        let r' := skipWs r
        if r'.head? = some '=' then
          match parseValue f (r'.drop 1) with
          | none => none
          | some (v, r'') =>
            match parsePairs f r'' with
            | none => none
            | some (ps, rf) => some ((k, v) :: ps, rf)
        else some ([], r')

/-- Fold raw pairs through the duplicate-key merge. -/
def insertPairs (acc : List (String × Value)) (ps : List (String × Value)) :
    List (String × Value) :=
  ps.foldl (fun a p => insertDict a p.1 p.2) acc

/-! ## A generator of well-formed source texts

`SVal` is an abstract syntax of values of the script format; `renderV`
prints it in the format's concrete syntax and `denote` gives the `Value`
tree the parser is expected to build for it.  The general theorems about
the extractors quantify over this family of texts. -/

mutual

inductive SVal where
  | atom (tok : String)
  | quoted (s : String)
  | blockD (es : SEntries)
  | blockL (items : SItems)

inductive SEntries where
  | nil
  | cons (k : String) (v : SVal) (rest : SEntries)

inductive SItems where
  | nil
  | cons (v : SVal) (rest : SItems)

end

/-- A bare token usable as a key or atom: non-empty, and free of the
delimiter characters, of `"` and of `'\n'`. -/
def goodTok (t : String) : Bool :=
  ¬ (t = "") ∧ t.data.all (fun c => ¬ isDelim c ∧ ¬ (c = '"'))

/-- Characters allowed inside generated quoted strings: anything except
`"` (which would close the string), braces (which would desynchronise the
extractors' brace counting) and newlines (which would introduce new line
starts for the anchor scanners). -/
def goodStrCh (c : Char) : Bool :=
  ¬ (c = '"') ∧ ¬ (c = '{') ∧ ¬ (c = '}') ∧ ¬ (c = '\n')

def goodStr (s : String) : Bool := s.data.all goodStrCh

def itemsNil : SItems → Bool
  | SItems.nil => true
  | SItems.cons _ _ => false

mutual

def goodVal : SVal → Bool
  | SVal.atom t => goodTok t
  | SVal.quoted s => goodStr s
  | SVal.blockD es => goodEntries es
  | SVal.blockL items => goodItems items ∧ ¬ itemsNil items

def goodEntries : SEntries → Bool
  | SEntries.nil => true
  | SEntries.cons k v rest => goodTok k ∧ goodVal v ∧ goodEntries rest

def goodItems : SItems → Bool
  | SItems.nil => true
  | SItems.cons v rest => goodVal v ∧ goodItems rest

end

mutual

/-- Concrete syntax: inner blocks are rendered on one line, each element
preceded by a single space. -/
def renderV : SVal → Txt
  | SVal.atom t => t.data
  | SVal.quoted s => '"' :: s.data ++ ['"']
  | SVal.blockD es => '{' :: renderEntries es ++ ['}']
  | SVal.blockL items => '{' :: renderItems items ++ ['}']

def renderEntries : SEntries → Txt
  | SEntries.nil => []
  | SEntries.cons k v rest => ' ' :: k.data ++ '=' :: renderV v ++ renderEntries rest

def renderItems : SItems → Txt
  | SItems.nil => []
  | SItems.cons v rest => ' ' :: renderV v ++ renderItems rest

end

/-- Top-level concrete syntax, matching the save-file layout: every entry
is `key=` on one line followed by its value on the next line. -/
def renderDoc : SEntries → Txt
  | SEntries.nil => []
  | SEntries.cons k v rest => k.data ++ '=' :: '\n' :: renderV v ++ '\n' :: renderDoc rest

mutual

/-- The `Value` tree the parser builds for a rendered `SVal`. -/
def denote : SVal → Value
  | SVal.atom t => classify t
  | SVal.quoted s => Value.str s
  | SVal.blockD es => Value.dict (denoteEntries [] es)
  | SVal.blockL items => Value.list (denoteItems items)

/-- Entries folded through the duplicate-key merge. -/
def denoteEntries (acc : List (String × Value)) : SEntries → List (String × Value)
  | SEntries.nil => acc
  | SEntries.cons k v rest => denoteEntries (insertDict acc k (denote v)) rest

def denoteItems : SItems → List Value
  | SItems.nil => []
  | SItems.cons v rest => denote v :: denoteItems rest

end

mutual

/-- Fuel sufficient to parse a rendered `SVal` (with room to spare). -/
def cost : SVal → Nat
  | SVal.atom _ => 1
  | SVal.quoted _ => 1
  | SVal.blockD es => 3 + costEntries es
  | SVal.blockL items => 3 + costItems items

def costEntries : SEntries → Nat
  | SEntries.nil => 1
  | SEntries.cons _ v rest => 1 + cost v + costEntries rest

def costItems : SItems → Nat
  | SItems.nil => 1
  | SItems.cons v rest => 1 + cost v + costItems rest

end

/-- Fuel sufficient for a whole-document parse and for every slice parse
performed by the extractors on a rendered document. -/
def docCostE : SEntries → Nat
  | SEntries.nil => 1
  | SEntries.cons _ v rest => 4 + cost v + docCostE rest

def appendE : SEntries → SEntries → SEntries
  | SEntries.nil, b => b
  | SEntries.cons k v rest, b => SEntries.cons k v (appendE rest b)

def containsKeyE : SEntries → String → Bool
  | SEntries.nil, _ => false
  | SEntries.cons k _ rest, name => k = name ∨ containsKeyE rest name

/-- Is the value a block (`{...}`)?  Extraction claims are about sections
written in the `name={...}` shape. -/
def isBlockS : SVal → Bool
  | SVal.blockD _ => true
  | SVal.blockL _ => true
  | _ => false

/-- The characters that may legitimately follow a rendered value: end of
input, a space or newline separator, or a closing brace. -/
def boundary (l : Txt) : Bool :=
  match l.head? with
  | none => true
  | some c => c = ' ' ∨ c = '\n' ∨ c = '}'

/-- Keys of an association list, duplicate-key counts and values, and the
list-shape test used by the merge law. -/
def keysOf (acc : List (String × Value)) : List String := acc.map (fun e => e.1)

def countKey (ps : List (String × Value)) (k : String) : Nat :=
  (ps.filter (fun e => e.1 = k)).length

def valsK (ps : List (String × Value)) (k : String) : List Value :=
  (ps.filter (fun e => e.1 = k)).map (fun e => e.2)

def isSeq : Value → Bool
  | Value.list _ => true
  | _ => false

def entryKeys : SEntries → List String
  | SEntries.nil => []
  | SEntries.cons k _ rest => k :: entryKeys rest

/-- The entries as plain pairs, without duplicate-key merging. -/
def denotePairs : SEntries → List (String × Value)
  | SEntries.nil => []
  | SEntries.cons k v rest => (k, denote v) :: denotePairs rest

/-- A three-uppercase-letter key, the tags matched by
`iterate_country_sections`. -/
def tagKey (k : String) : Bool :=
  match k.data with
  | [a, b, c] => isUpperCh a ∧ isUpperCh b ∧ isUpperCh c
  | _ => false

/-- The country sections of a document: entries whose key is a tag and
whose value is a block, with the value wrapped the way `SaveParser.parse`
wraps an extracted slice. -/
def tagSections : SEntries → List (String × Value)
  | SEntries.nil => []
  | SEntries.cons k v rest =>
    if tagKey k = true ∧ isBlockS v = true then
      (k, Value.list [denote v]) :: tagSections rest
    else tagSections rest

/-! ## Lemmas about the tokenizer primitives -/

theorem string_mk_data (s : String) : String.mk s.data = s := rfl

theorem isWsCh_false_of_delim {c : Char} (h : isDelim c = false) : isWsCh c = false := by
  simp [isDelim] at h
  exact h.1

theorem skipWs_cons_ws {c : Char} (h : isWsCh c = true) (l : Txt) :
    skipWs (c :: l) = skipWs l := by
  simp [skipWs, skipWsAux, h]

theorem skipWs_cons_other {c : Char} (h1 : isWsCh c = false) (h2 : ¬ (c = '#'))
    (l : Txt) : skipWs (c :: l) = c :: l := by
  simp [skipWs, skipWsAux, h1, h2]

theorem skipWsAux_shape (l : Txt) : ∀ b : Bool,
    skipWsAux b l = [] ∨
      ∃ c cs, skipWsAux b l = c :: cs ∧ isWsCh c = false ∧ ¬ (c = '#') := by
  induction l with
  | nil => intro b; left; cases b <;> rfl
  | cons c cs ih =>
    intro b
    cases b with
    | false =>
      cases hw : isWsCh c with
      | true =>
        rw [show skipWsAux false (c :: cs) = skipWsAux false cs by simp [skipWsAux, hw]]
        exact ih false
      | false =>
        by_cases hh : c = '#'
        · rw [show skipWsAux false (c :: cs) = skipWsAux true cs by
            simp [skipWsAux, hw, hh, isWsCh]]
          exact ih true
        · right
          exact ⟨c, cs, by simp [skipWsAux, hw, hh], hw, hh⟩
    | true =>
      by_cases hn : c = '\n'
      · rw [show skipWsAux true (c :: cs) = skipWsAux false cs by simp [skipWsAux, hn]]
        exact ih false
      · rw [show skipWsAux true (c :: cs) = skipWsAux true cs by simp [skipWsAux, hn]]
        exact ih true

theorem skipWs_idem (l : Txt) : skipWs (skipWs l) = skipWs l := by
  rcases skipWsAux_shape l false with h | ⟨c, cs, h, hw, hh⟩
  · rw [show skipWs l = skipWsAux false l from rfl, h]; rfl
  · rw [show skipWs l = skipWsAux false l from rfl, h]
    exact skipWs_cons_other hw hh cs

theorem boundary_delim {l : Txt} (h : boundary l = true) :
    l = [] ∨ ∃ c cs, l = c :: cs ∧ isDelim c = true := by
  cases l with
  | nil => left; rfl
  | cons c cs =>
    right
    refine ⟨c, cs, rfl, ?_⟩
    simp [boundary] at h
    rcases h with h | h | h <;> simp [isDelim, isWsCh, h]

theorem readTokenAux_append {tok rest : Txt}
    (h1 : ∀ c ∈ tok, isDelim c = false)
    (h2 : rest = [] ∨ ∃ c cs, rest = c :: cs ∧ isDelim c = true) :
    readTokenAux (tok ++ rest) = (tok, rest) := by
  induction tok with
  | nil =>
    rcases h2 with h | ⟨c, cs, rfl, hd⟩
    · subst h; rfl
    · simp [readTokenAux, hd]
  | cons c cs ih =>
    have hc := h1 c (by simp)
    have ih' := ih (fun x hx => h1 x (by simp [hx]))
    simp [readTokenAux, hc, ih']

theorem readToken_append {tok rest : Txt}
    (h1 : ∀ c ∈ tok, isDelim c = false)
    (h2 : rest = [] ∨ ∃ c cs, rest = c :: cs ∧ isDelim c = true) :
    readToken (tok ++ rest) = (String.mk tok, rest) := by
  simp [readToken, readTokenAux_append h1 h2]

theorem readQuotedAux_append {s rest : Txt} (h : ∀ c ∈ s, ¬ (c = '"')) :
    readQuotedAux (s ++ '"' :: rest) = (s, rest) := by
  induction s with
  | nil => simp [readQuotedAux]
  | cons c cs ih =>
    have hc := h c (by simp)
    have ih' := ih (fun x hx => h x (by simp [hx]))
    simp [readQuotedAux, hc, ih']

theorem readQuotedAux_eof {s : Txt} (h : ∀ c ∈ s, ¬ (c = '"')) :
    readQuotedAux s = (s, []) := by
  induction s with
  | nil => rfl
  | cons c cs ih =>
    have hc := h c (by simp)
    have ih' := ih (fun x hx => h x (by simp [hx]))
    simp [readQuotedAux, hc, ih']

theorem braceAux_seg {seg : Txt} (h : ∀ c ∈ seg, ¬ (c = '{') ∧ ¬ (c = '}')) :
    ∀ cnt rest, 0 < cnt →
      braceAux cnt (seg ++ rest) =
        ((seg ++ (braceAux cnt rest).1, (braceAux cnt rest).2) : Txt × Txt) := by
  induction seg with
  | nil => intro cnt rest _; simp
  | cons c cs ih =>
    intro cnt rest hcnt
    have hc := h c (by simp)
    have ih' := ih (fun x hx => h x (List.mem_cons_of_mem _ hx)) cnt rest hcnt
    have hne : ¬ (cnt = 0) := by omega
    simp [braceAux, hc.1, hc.2, hne, ih']

theorem startsWith_refl_append (pat rest : Txt) : startsWith pat (pat ++ rest) = true := by
  induction pat with
  | nil => rfl
  | cons c cs ih => simp [startsWith, ih]

theorem startsWith_keyEq {A : Txt} (hA : ∀ c ∈ A, ¬ (c = '=')) :
    ∀ {B : Txt}, (∀ c ∈ B, ¬ (c = '=')) → ∀ t,
      startsWith (A ++ ['=']) (B ++ '=' :: t) = true → A = B := by
  induction A with
  | nil =>
    intro B hB t h
    cases B with
    | nil => rfl
    | cons b bs =>
      exfalso
      simp [startsWith] at h
      exact hB b (List.mem_cons_self _ _) h.symm
  | cons a as ih =>
    intro B hB t h
    cases B with
    | nil =>
      exfalso
      simp [startsWith] at h
      exact hA a (List.mem_cons_self _ _) h.1
    | cons b bs =>
      simp [startsWith] at h
      have heq := ih (fun c hc => hA c (List.mem_cons_of_mem _ hc))
        (fun c hc => hB c (List.mem_cons_of_mem _ hc)) t h.2
      rw [h.1, heq]

theorem startsWith_keyNl {A : Txt} (hA1 : ∀ c ∈ A, ¬ (c = '='))
    (hA2 : ∀ c ∈ A, ¬ (c = '\n')) :
    ∀ {B : Txt}, (∀ c ∈ B, ¬ (c = '=')) → ∀ t,
      startsWith (A ++ ['=']) (B ++ '\n' :: t) = false := by
  induction A with
  | nil =>
    intro B hB t
    cases B with
    | nil => simp [startsWith]
    | cons b bs =>
      simp [startsWith]
      intro hb
      exact absurd hb.symm (hB b (List.mem_cons_self _ _))
  | cons a as ih =>
    intro B hB t
    cases B with
    | nil =>
      simp [startsWith]
      intro ha
      exact absurd ha (hA2 a (List.mem_cons_self _ _))
    | cons b bs =>
      simp [startsWith]
      intro _
      have hrec := ih (fun c hc => hA1 c (List.mem_cons_of_mem _ hc))
        (fun c hc => hA2 c (List.mem_cons_of_mem _ hc))
        (fun c hc => hB c (List.mem_cons_of_mem _ hc)) t
      simpa using hrec

/-! ## Facts about good tokens and rendered heads -/

theorem delim_facts {c : Char} (h : isDelim c = false) :
    isWsCh c = false ∧ ¬ (c = '=') ∧ ¬ (c = '{') ∧ ¬ (c = '}') ∧ ¬ (c = '#') := by
  simpa [isDelim] using h

theorem goodTok_shape {t : String} (h : goodTok t = true) : ∃ c cs, t.data = c :: cs := by
  simp [goodTok] at h
  cases ht : t.data with
  | nil =>
    exfalso
    apply h.1
    have hmk : t = String.mk t.data := (string_mk_data t).symm
    rw [hmk, ht]
  | cons c cs => exact ⟨c, cs, rfl⟩

theorem goodTok_chars {t : String} (h : goodTok t = true) :
    ∀ c ∈ t.data, isDelim c = false ∧ ¬ (c = '"') := by
  simp [goodTok, List.all_eq_true] at h
  intro c hc
  have := h.2 c hc
  exact ⟨by simpa using this.1, this.2⟩

theorem goodStr_chars {st : String} (h : goodStr st = true) :
    ∀ c ∈ st.data, ¬ (c = '"') ∧ ¬ (c = '{') ∧ ¬ (c = '}') ∧ ¬ (c = '\n') := by
  simp [goodStr, List.all_eq_true, goodStrCh] at h
  intro c hc
  exact h c hc

/-- `parseValue` on a rendered bare token followed by a boundary. -/
theorem parseValue_atom {t : String} (h : goodTok t = true) {rest : Txt}
    (hb : boundary rest = true) (g : Nat) :
    parseValue (g + 1) (t.data ++ rest) = some (classify t, rest) := by
  obtain ⟨c, cs, hshape⟩ := goodTok_shape h
  have hchars := goodTok_chars h
  have hc := hchars c (by simp [hshape])
  have hcd := delim_facts hc.1
  have hskip : skipWs (t.data ++ rest) = t.data ++ rest := by
    rw [hshape]
    exact skipWs_cons_other hcd.1 hcd.2.2.2.2 _
  have hread : readToken (t.data ++ rest) = (t, rest) := by
    have := readToken_append (fun x hx => (hchars x hx).1) (boundary_delim hb)
    rwa [string_mk_data] at this
  simp only [parseValue, hskip]
  rw [if_neg, if_neg]
  · simp [hread]
  · rw [hshape]; simp; intro hcc; exact absurd hcc hcd.2.2.1
  · rw [hshape]; simp; intro hcc; exact absurd hcc hc.2

/-- `parseValue` on a rendered quoted string. -/
theorem parseValue_quoted {st : String} (h : goodStr st = true) (rest : Txt) (g : Nat) :
    parseValue (g + 1) (('"' :: st.data ++ ['"']) ++ rest) = some (Value.str st, rest) := by
  have hq : readQuotedAux (st.data ++ '"' :: rest) = (st.data, rest) :=
    readQuotedAux_append (fun c hc => (goodStr_chars h c hc).1)
  have hskip : skipWs ('"' :: st.data ++ '"' :: rest) = '"' :: st.data ++ '"' :: rest :=
    skipWs_cons_other (by simp [isWsCh]) (by simp) _
  simp only [parseValue, List.cons_append, List.append_assoc, List.cons_append,
    List.nil_append] at hskip ⊢
  rw [hskip]
  rw [if_pos (by simp)]
  simp [readQuoted, hq, string_mk_data]

/-- Every rendered good value starts with a character that stops
whitespace skipping and is none of `=`, `}`, `\n`. -/
theorem renderV_head_facts {v : SVal} (hv : goodVal v = true) :
    ∃ c cs, renderV v = c :: cs ∧ isWsCh c = false ∧ ¬ (c = '#') ∧
      ¬ (c = '=') ∧ ¬ (c = '}') ∧ ¬ (c = '\n') := by
  cases v with
  | atom t =>
    obtain ⟨c, cs, hshape⟩ := goodTok_shape (by simpa [goodVal] using hv)
    have hc := goodTok_chars (by simpa [goodVal] using hv) c (by simp [hshape])
    have hcd := delim_facts hc.1
    refine ⟨c, cs, by simp [renderV, hshape], hcd.1, hcd.2.2.2.2, hcd.2.1, hcd.2.2.2.1, ?_⟩
    intro hcc
    rw [hcc] at hcd
    simpa [isWsCh] using hcd.1
  | quoted st =>
    exact ⟨'"', st.data ++ ['"'], rfl, by simp [isWsCh], by simp, by simp, by simp, by simp⟩
  | blockD es =>
    exact ⟨'{', renderEntries es ++ ['}'], rfl, by simp [isWsCh], by simp, by simp, by simp, by simp⟩
  | blockL its =>
    exact ⟨'{', renderItems its ++ ['}'], rfl, by simp [isWsCh], by simp, by simp, by simp, by simp⟩

theorem skipWs_renderV {v : SVal} (hv : goodVal v = true) (Z : Txt) :
    skipWs (renderV v ++ Z) = renderV v ++ Z := by
  obtain ⟨c, cs, hshape, h1, h2, _⟩ := renderV_head_facts hv
  rw [hshape]
  exact skipWs_cons_other h1 h2 _

/-- The structure lookahead on dict-shaped contents (`key=...`) decides
"not a list". -/
theorem lookIsList_dict {k : String} (hk : goodTok k = true) (Y : Txt) :
    lookIsList (k.data ++ '=' :: Y) = false := by
  obtain ⟨c, cs, hshape⟩ := goodTok_shape hk
  have hchars := goodTok_chars hk
  have hc := hchars c (by simp [hshape])
  have hcd := delim_facts hc.1
  have hread : readToken (k.data ++ '=' :: Y) = (k, '=' :: Y) := by
    have := readToken_append (fun x hx => (hchars x hx).1)
      (Or.inr ⟨'=', Y, rfl, by simp [isDelim]⟩)
    rwa [string_mk_data] at this
  have hskip : skipWs ('=' :: Y) = '=' :: Y :=
    skipWs_cons_other (by simp [isWsCh]) (by simp) _
  simp only [lookIsList]
  rw [if_neg, if_neg, if_neg]
  · simp [hread, hskip]
  · rw [hshape]
    simp
    exact hcd.2.2.2.1
  · rw [hshape]; simp; intro hcc; exact absurd hcc hcd.2.2.1
  · rw [hshape]; simp; intro hcc; exact absurd hcc hc.2

/-- The structure lookahead on list-shaped contents (first element not
followed by `=`) decides "list". -/
theorem lookIsList_item {v : SVal} (hv : goodVal v = true) {Z : Txt}
    (hbZ : boundary Z = true) (hne : ¬ ((skipWs Z).head? = some '=')) :
    lookIsList (renderV v ++ Z) = true := by
  cases v with
  | atom t =>
    have hchars := goodTok_chars (by simpa [goodVal] using hv)
    obtain ⟨c, cs, hshape⟩ := goodTok_shape (by simpa [goodVal] using hv)
    have hc := hchars c (by simp [hshape])
    have hcd := delim_facts hc.1
    have hread : readToken (t.data ++ Z) = (t, Z) := by
      have := readToken_append (fun x hx => (hchars x hx).1) (boundary_delim hbZ)
      rwa [string_mk_data] at this
    simp only [lookIsList, renderV]
    rw [if_neg, if_neg, if_neg]
    · simp [hread, hne]
    · rw [hshape]
      simp
      exact hcd.2.2.2.1
    · rw [hshape]; simp; intro hcc; exact absurd hcc hcd.2.2.1
    · rw [hshape]; simp; intro hcc; exact absurd hcc hc.2
  | quoted s =>
    have hq : readQuotedAux (s.data ++ '"' :: Z) = (s.data, Z) :=
      readQuotedAux_append (fun c hc => (goodStr_chars (by simpa [goodVal] using hv) c hc).1)
    simp only [lookIsList, renderV, List.cons_append, List.append_assoc, List.nil_append]
    rw [if_pos (by simp)]
    simp [readQuoted, hq, hne]
  | blockD es =>
    simp only [lookIsList, renderV, List.cons_append]
    rw [if_neg (by simp), if_pos (by simp)]
  | blockL its =>
    simp only [lookIsList, renderV, List.cons_append]
    rw [if_neg (by simp), if_pos (by simp)]

/-! ## The parse functions depend on the input only through `skipWs` -/

theorem parseValue_skipWs (f : Nat) (l : Txt) :
    parseValue f (skipWs l) = parseValue f l := by
  cases f with
  | zero => rfl
  | succ f => simp only [parseValue, skipWs_idem]

theorem parseList_skipWs (f : Nat) (l : Txt) :
    parseList f (skipWs l) = parseList f l := by
  cases f with
  | zero => rfl
  | succ f => simp only [parseList, skipWs_idem]

theorem parseDict_skipWs (f : Nat) (l : Txt) (acc : List (String × Value)) :
    parseDict f (skipWs l) acc = parseDict f l acc := by
  cases f with
  | zero => rfl
  | succ f => simp only [parseDict, skipWs_idem]

theorem parseBlockContents_skipWs (f : Nat) (l : Txt) :
    parseBlockContents f (skipWs l) = parseBlockContents f l := by
  cases f with
  | zero => rfl
  | succ f =>
    simp only [parseBlockContents, skipWs_idem, parseList_skipWs, parseDict_skipWs]

/-! ## Boundary facts for rendered fragments -/

theorem boundary_entries (es : SEntries) (tail : Txt) :
    boundary (renderEntries es ++ '}' :: tail) = true := by
  cases es <;> simp [renderEntries, boundary]

theorem boundary_items (its : SItems) (tail : Txt) :
    boundary (renderItems its ++ '}' :: tail) = true := by
  cases its <;> simp [renderItems, boundary]

theorem items_tail_head {its : SItems} (h : goodItems its = true) (tail : Txt) :
    ¬ ((skipWs (renderItems its ++ '}' :: tail)).head? = some '=') := by
  cases its with
  | nil =>
    rw [show renderItems SItems.nil ++ '}' :: tail = '}' :: tail by simp [renderItems]]
    rw [skipWs_cons_other (by simp [isWsCh]) (by simp) _]
    simp
  | cons v rest =>
    have hv : goodVal v = true := by
      simp [goodItems] at h
      exact h.1
    obtain ⟨c, cs, hshape, h1, h2, h3, _⟩ := renderV_head_facts hv
    rw [show renderItems (SItems.cons v rest) ++ '}' :: tail
        = ' ' :: (renderV v ++ (renderItems rest ++ '}' :: tail)) by simp [renderItems]]
    rw [skipWs_cons_ws (by simp [isWsCh]) _, hshape]
    rw [show (c :: cs) ++ (renderItems rest ++ '}' :: tail)
        = c :: (cs ++ (renderItems rest ++ '}' :: tail)) by simp]
    rw [skipWs_cons_other h1 h2 _]
    simpa using h3

/-! ## The central lemma: parsing a rendered value -/

mutual

theorem renderV_ok : ∀ (v : SVal), goodVal v = true → ∀ (rest : Txt),
    boundary rest = true → ∀ g : Nat,
    parseValue (g + cost v) (renderV v ++ rest) = some (denote v, rest)
  | SVal.atom t, hv, rest, hb, g => by
    simpa [cost, renderV, denote] using parseValue_atom (by simpa [goodVal] using hv) hb g
  | SVal.quoted st, hv, rest, hb, g => by
    have := parseValue_quoted (show goodStr st = true by simpa [goodVal] using hv) rest g
    simpa [cost, renderV, denote] using this
  | SVal.blockD es, hv, rest, hb, g => by
    have hes : goodEntries es = true := by simpa [goodVal] using hv
    rw [show g + cost (SVal.blockD es) = (g + 2 + costEntries es) + 1 by simp [cost]; omega]
    rw [show renderV (SVal.blockD es) ++ rest = '{' :: (renderEntries es ++ '}' :: rest) by
      simp [renderV]]
    simp only [parseValue]
    rw [skipWs_cons_other (by simp [isWsCh]) (by simp) _]
    rw [if_neg (by simp), if_pos (by simp)]
    rw [show g + 2 + costEntries es = (g + 1 + costEntries es) + 1 by omega]
    simp only [parseBlock, List.drop_succ_cons, List.drop_zero]
    rw [parseBlockContents_skipWs]
    rw [renderDictContents_ok es hes rest g]
    have hsk : skipWs ('}' :: rest) = '}' :: rest :=
      skipWs_cons_other (by simp [isWsCh]) (by simp) rest
    simp [denote, hsk]
  | SVal.blockL its, hv, rest, hb, g => by
    have hits : goodItems its = true := by
      simp [goodVal] at hv
      exact hv.1
    have hne : itemsNil its = false := by
      simp [goodVal] at hv
      simpa using hv.2
    rw [show g + cost (SVal.blockL its) = (g + 2 + costItems its) + 1 by simp [cost]; omega]
    rw [show renderV (SVal.blockL its) ++ rest = '{' :: (renderItems its ++ '}' :: rest) by
      simp [renderV]]
    simp only [parseValue]
    rw [skipWs_cons_other (by simp [isWsCh]) (by simp) _]
    rw [if_neg (by simp), if_pos (by simp)]
    rw [show g + 2 + costItems its = (g + 1 + costItems its) + 1 by omega]
    simp only [parseBlock, List.drop_succ_cons, List.drop_zero]
    rw [parseBlockContents_skipWs]
    rw [renderListContents_ok its hits hne rest g]
    have hsk : skipWs ('}' :: rest) = '}' :: rest :=
      skipWs_cons_other (by simp [isWsCh]) (by simp) rest
    simp [denote, hsk]

theorem renderDictContents_ok : ∀ (es : SEntries), goodEntries es = true →
    ∀ (tail : Txt) (g : Nat),
    parseBlockContents (g + 1 + costEntries es) (renderEntries es ++ '}' :: tail) =
      some (Value.dict (denoteEntries [] es), '}' :: tail)
  | SEntries.nil, hes, tail, g => by
    rw [show renderEntries SEntries.nil ++ '}' :: tail = '}' :: tail by simp [renderEntries]]
    rw [show g + 1 + costEntries SEntries.nil = (g + 1) + 1 by simp [costEntries]]
    simp only [parseBlockContents]
    rw [skipWs_cons_other (by simp [isWsCh]) (by simp) _]
    rw [if_pos (by simp)]
    simp [denoteEntries]
  | SEntries.cons k v es', hes, tail, g => by
    have hk : goodTok k = true := by
      simp [goodEntries] at hes
      exact hes.1
    obtain ⟨c, cs, hshape⟩ := goodTok_shape hk
    have hcfacts := delim_facts (goodTok_chars hk c (by simp [hshape])).1
    have hskipl : skipWs (renderEntries (SEntries.cons k v es') ++ '}' :: tail)
        = c :: (cs ++ '=' :: (renderV v ++ (renderEntries es' ++ '}' :: tail))) := by
      rw [show renderEntries (SEntries.cons k v es') ++ '}' :: tail
          = ' ' :: (k.data ++ '=' :: (renderV v ++ (renderEntries es' ++ '}' :: tail))) by
        simp [renderEntries]]
      rw [skipWs_cons_ws (by simp [isWsCh]) _, hshape]
      rw [show (c :: cs) ++ '=' :: (renderV v ++ (renderEntries es' ++ '}' :: tail))
          = c :: (cs ++ '=' :: (renderV v ++ (renderEntries es' ++ '}' :: tail))) by simp]
      exact skipWs_cons_other hcfacts.1 hcfacts.2.2.2.2 _
    have hnc1 : ((c : Char) = '}') = False := by simp [hcfacts.2.2.2.1]
    have hlook : lookIsList (c :: (cs ++ '=' :: (renderV v ++ (renderEntries es' ++ '}' :: tail))))
        = false := by
      rw [show c :: (cs ++ '=' :: (renderV v ++ (renderEntries es' ++ '}' :: tail)))
          = k.data ++ '=' :: (renderV v ++ (renderEntries es' ++ '}' :: tail)) by
        rw [hshape]; simp]
      exact lookIsList_dict hk _
    rw [show g + 1 + costEntries (SEntries.cons k v es')
        = (g + costEntries (SEntries.cons k v es')) + 1 by omega]
    simp only [parseBlockContents]
    rw [hskipl]
    simp only [List.head?_cons, Option.some.injEq, hnc1, if_false, hlook, Bool.false_eq_true]
    rw [renderEntries_ok (SEntries.cons k v es') hes tail ([]) g]

theorem renderListContents_ok : ∀ (its : SItems), goodItems its = true →
    itemsNil its = false → ∀ (tail : Txt) (g : Nat),
    parseBlockContents (g + 1 + costItems its) (renderItems its ++ '}' :: tail) =
      some (Value.list (denoteItems its), '}' :: tail)
  | SItems.nil, hits, hnn, tail, g => by simp [itemsNil] at hnn
  | SItems.cons v its', hits, hnn, tail, g => by
    have hv : goodVal v = true := by
      simp [goodItems] at hits
      exact hits.1
    have hits' : goodItems its' = true := by
      simp [goodItems] at hits
      exact hits.2
    obtain ⟨c, cs, hshape, h1, h2, h3, h4, h5⟩ := renderV_head_facts hv
    have hskipl : skipWs (renderItems (SItems.cons v its') ++ '}' :: tail)
        = c :: (cs ++ (renderItems its' ++ '}' :: tail)) := by
      rw [show renderItems (SItems.cons v its') ++ '}' :: tail
          = ' ' :: (renderV v ++ (renderItems its' ++ '}' :: tail)) by simp [renderItems]]
      rw [skipWs_cons_ws (by simp [isWsCh]) _, hshape]
      rw [show (c :: cs) ++ (renderItems its' ++ '}' :: tail)
          = c :: (cs ++ (renderItems its' ++ '}' :: tail)) by simp]
      exact skipWs_cons_other h1 h2 _
    have hnc1 : ((c : Char) = '}') = False := by simp [h4]
    have hlook : lookIsList (c :: (cs ++ (renderItems its' ++ '}' :: tail))) = true := by
      rw [show c :: (cs ++ (renderItems its' ++ '}' :: tail))
          = renderV v ++ (renderItems its' ++ '}' :: tail) by rw [hshape]; simp]
      exact lookIsList_item hv (boundary_items its' tail) (items_tail_head hits' tail)
    rw [show g + 1 + costItems (SItems.cons v its')
        = (g + costItems (SItems.cons v its')) + 1 by omega]
    simp only [parseBlockContents]
    rw [hskipl]
    simp only [List.head?_cons, Option.some.injEq, hnc1, if_false, hlook, if_true]
    rw [renderItems_ok (SItems.cons v its') hits tail g]

theorem renderEntries_ok : ∀ (es : SEntries), goodEntries es = true →
    ∀ (tail : Txt) (acc : List (String × Value)) (g : Nat),
    parseDict (g + costEntries es) (renderEntries es ++ '}' :: tail) acc =
      some (denoteEntries acc es, '}' :: tail)
  | SEntries.nil, hes, tail, acc, g => by
    rw [show renderEntries SEntries.nil ++ '}' :: tail = '}' :: tail by simp [renderEntries]]
    rw [show g + costEntries SEntries.nil = g + 1 by simp [costEntries]]
    simp only [parseDict]
    rw [skipWs_cons_other (by simp [isWsCh]) (by simp) _]
    rw [if_pos (by simp)]
    simp [denoteEntries]
  | SEntries.cons k v es', hes, tail, acc, g => by
    have hk : goodTok k = true := by
      simp [goodEntries] at hes
      exact hes.1
    have hv : goodVal v = true := by
      simp [goodEntries] at hes
      exact hes.2.1
    have hes' : goodEntries es' = true := by
      simp [goodEntries] at hes
      exact hes.2.2
    obtain ⟨c, cs, hshape⟩ := goodTok_shape hk
    have hcfacts := delim_facts (goodTok_chars hk c (by simp [hshape])).1
    have hkne : ¬ (k = "") := by
      simp [goodTok] at hk
      exact hk.1
    have hskipl : skipWs (renderEntries (SEntries.cons k v es') ++ '}' :: tail)
        = c :: (cs ++ '=' :: (renderV v ++ (renderEntries es' ++ '}' :: tail))) := by
      rw [show renderEntries (SEntries.cons k v es') ++ '}' :: tail
          = ' ' :: (k.data ++ '=' :: (renderV v ++ (renderEntries es' ++ '}' :: tail))) by
        simp [renderEntries]]
      rw [skipWs_cons_ws (by simp [isWsCh]) _, hshape]
      rw [show (c :: cs) ++ '=' :: (renderV v ++ (renderEntries es' ++ '}' :: tail))
          = c :: (cs ++ '=' :: (renderV v ++ (renderEntries es' ++ '}' :: tail))) by simp]
      exact skipWs_cons_other hcfacts.1 hcfacts.2.2.2.2 _
    have hread' : readToken (c :: (cs ++ '=' :: (renderV v ++ (renderEntries es' ++ '}' :: tail))))
        = (k, '=' :: (renderV v ++ (renderEntries es' ++ '}' :: tail))) := by
      rw [show c :: (cs ++ '=' :: (renderV v ++ (renderEntries es' ++ '}' :: tail)))
          = k.data ++ '=' :: (renderV v ++ (renderEntries es' ++ '}' :: tail)) by
        rw [hshape]; simp]
      have := readToken_append (fun x hx => (goodTok_chars hk x hx).1)
        (Or.inr ⟨'=', renderV v ++ (renderEntries es' ++ '}' :: tail), rfl, by simp [isDelim]⟩)
      rwa [string_mk_data] at this
    have hnc1 : ((c : Char) = '}') = False := by simp [hcfacts.2.2.2.1]
    have hnc2 : ((c : Char) = '"') = False := by
      simp [(goodTok_chars hk c (by simp [hshape])).2]
    have hskipeq : skipWs ('=' :: (renderV v ++ (renderEntries es' ++ '}' :: tail)))
        = '=' :: (renderV v ++ (renderEntries es' ++ '}' :: tail)) :=
      skipWs_cons_other (by simp [isWsCh]) (by simp) _
    rw [show g + costEntries (SEntries.cons k v es') = (g + cost v + costEntries es') + 1 by
      simp [costEntries]; omega]
    simp only [parseDict]
    rw [hskipl]
    simp only [List.head?_cons, Option.some.injEq, hnc1, hnc2, if_false, hread', hkne,
      hskipeq, if_true, List.drop_succ_cons, List.drop_zero]
    rw [if_neg (by simp)]
    rw [show g + cost v + costEntries es' = (g + costEntries es') + cost v by omega]
    simp only [renderV_ok v hv (renderEntries es' ++ '}' :: tail) (boundary_entries es' tail)
      (g + costEntries es')]
    rw [show (g + costEntries es') + cost v = (g + cost v) + costEntries es' by omega]
    simp only [renderEntries_ok es' hes' tail (insertDict acc k (denote v)) (g + cost v)]
    simp [denoteEntries]

theorem renderItems_ok : ∀ (its : SItems), goodItems its = true →
    ∀ (tail : Txt) (g : Nat),
    parseList (g + costItems its) (renderItems its ++ '}' :: tail) =
      some (denoteItems its, '}' :: tail)
  | SItems.nil, hits, tail, g => by
    rw [show renderItems SItems.nil ++ '}' :: tail = '}' :: tail by simp [renderItems]]
    rw [show g + costItems SItems.nil = g + 1 by simp [costItems]]
    simp only [parseList]
    rw [skipWs_cons_other (by simp [isWsCh]) (by simp) _]
    rw [if_pos (by simp)]
    simp [denoteItems]
  | SItems.cons v its', hits, tail, g => by
    have hv : goodVal v = true := by
      simp [goodItems] at hits
      exact hits.1
    have hits' : goodItems its' = true := by
      simp [goodItems] at hits
      exact hits.2
    obtain ⟨c, cs, hshape, h1, h2, h3, h4, h5⟩ := renderV_head_facts hv
    have hskipl : skipWs (renderItems (SItems.cons v its') ++ '}' :: tail)
        = c :: (cs ++ (renderItems its' ++ '}' :: tail)) := by
      rw [show renderItems (SItems.cons v its') ++ '}' :: tail
          = ' ' :: (renderV v ++ (renderItems its' ++ '}' :: tail)) by simp [renderItems]]
      rw [skipWs_cons_ws (by simp [isWsCh]) _, hshape]
      rw [show (c :: cs) ++ (renderItems its' ++ '}' :: tail)
          = c :: (cs ++ (renderItems its' ++ '}' :: tail)) by simp]
      exact skipWs_cons_other h1 h2 _
    have hnc1 : ((c : Char) = '}') = False := by simp [h4]
    rw [show g + costItems (SItems.cons v its') = (g + cost v + costItems its') + 1 by
      simp [costItems]; omega]
    simp only [parseList]
    rw [hskipl]
    simp only [List.head?_cons, Option.some.injEq, hnc1, if_false]
    rw [if_neg (by simp)]
    rw [show c :: (cs ++ (renderItems its' ++ '}' :: tail))
        = renderV v ++ (renderItems its' ++ '}' :: tail) by rw [hshape]; simp]
    rw [show g + cost v + costItems its' = (g + costItems its') + cost v by omega]
    simp only [renderV_ok v hv (renderItems its' ++ '}' :: tail) (boundary_items its' tail)
      (g + costItems its')]
    rw [show (g + costItems its') + cost v = (g + cost v) + costItems its' by omega]
    simp only [renderItems_ok its' hits' tail (g + cost v)]
    simp [denoteItems]

end

/-! ## Congruence in the skipped input -/

theorem parseValue_congr {l1 l2 : Txt} (h : skipWs l1 = skipWs l2) (f : Nat) :
    parseValue f l1 = parseValue f l2 := by
  cases f with
  | zero => rfl
  | succ f => simp only [parseValue, h]

theorem parseList_congr {l1 l2 : Txt} (h : skipWs l1 = skipWs l2) (f : Nat) :
    parseList f l1 = parseList f l2 := by
  cases f with
  | zero => rfl
  | succ f => simp only [parseList, h]

theorem parseDict_congr {l1 l2 : Txt} (h : skipWs l1 = skipWs l2) (f : Nat)
    (acc : List (String × Value)) : parseDict f l1 acc = parseDict f l2 acc := by
  cases f with
  | zero => rfl
  | succ f => simp only [parseDict, h]

/-! ## The entries loop when the closing brace is missing (truncated input) -/

theorem renderEntries_eof : ∀ (es : SEntries), goodEntries es = true →
    ∀ (acc : List (String × Value)) (g : Nat),
    parseDict (g + costEntries es) (renderEntries es) acc =
      some (denoteEntries acc es, [])
  | SEntries.nil, hes, acc, g => by
    rw [show renderEntries SEntries.nil = ([] : Txt) by simp [renderEntries]]
    rw [show g + costEntries SEntries.nil = g + 1 by simp [costEntries]]
    simp only [parseDict]
    simp [skipWs, skipWsAux, denoteEntries]
  | SEntries.cons k v es', hes, acc, g => by
    have hk : goodTok k = true := by
      simp [goodEntries] at hes
      exact hes.1
    have hv : goodVal v = true := by
      simp [goodEntries] at hes
      exact hes.2.1
    have hes' : goodEntries es' = true := by
      simp [goodEntries] at hes
      exact hes.2.2
    obtain ⟨c, cs, hshape⟩ := goodTok_shape hk
    have hcfacts := delim_facts (goodTok_chars hk c (by simp [hshape])).1
    have hkne : ¬ (k = "") := by
      simp [goodTok] at hk
      exact hk.1
    have hboundary : boundary (renderEntries es') = true := by
      cases es' <;> simp [renderEntries, boundary]
    have hskipl : skipWs (renderEntries (SEntries.cons k v es'))
        = c :: (cs ++ '=' :: (renderV v ++ renderEntries es')) := by
      rw [show renderEntries (SEntries.cons k v es')
          = ' ' :: (k.data ++ '=' :: (renderV v ++ renderEntries es')) by simp [renderEntries]]
      rw [skipWs_cons_ws (by simp [isWsCh]) _, hshape]
      rw [show (c :: cs) ++ '=' :: (renderV v ++ renderEntries es')
          = c :: (cs ++ '=' :: (renderV v ++ renderEntries es')) by simp]
      exact skipWs_cons_other hcfacts.1 hcfacts.2.2.2.2 _
    have hread' : readToken (c :: (cs ++ '=' :: (renderV v ++ renderEntries es')))
        = (k, '=' :: (renderV v ++ renderEntries es')) := by
      rw [show c :: (cs ++ '=' :: (renderV v ++ renderEntries es'))
          = k.data ++ '=' :: (renderV v ++ renderEntries es') by rw [hshape]; simp]
      have := readToken_append (fun x hx => (goodTok_chars hk x hx).1)
        (Or.inr ⟨'=', renderV v ++ renderEntries es', rfl, by simp [isDelim]⟩)
      rwa [string_mk_data] at this
    have hnc1 : ((c : Char) = '}') = False := by simp [hcfacts.2.2.2.1]
    have hnc2 : ((c : Char) = '"') = False := by
      simp [(goodTok_chars hk c (by simp [hshape])).2]
    have hskipeq : skipWs ('=' :: (renderV v ++ renderEntries es'))
        = '=' :: (renderV v ++ renderEntries es') :=
      skipWs_cons_other (by simp [isWsCh]) (by simp) _
    rw [show g + costEntries (SEntries.cons k v es') = (g + cost v + costEntries es') + 1 by
      simp [costEntries]; omega]
    simp only [parseDict]
    rw [hskipl]
    simp only [List.head?_cons, Option.some.injEq, hnc1, hnc2, if_false, hread', hkne,
      hskipeq, if_true, List.drop_succ_cons, List.drop_zero]
    rw [if_neg (by simp)]
    rw [show g + cost v + costEntries es' = (g + costEntries es') + cost v by omega]
    simp only [renderV_ok v hv (renderEntries es') hboundary (g + costEntries es')]
    rw [show (g + costEntries es') + cost v = (g + cost v) + costEntries es' by omega]
    simp only [renderEntries_eof es' hes' (insertDict acc k (denote v)) (g + cost v)]
    simp [denoteEntries]

theorem renderDictContents_eof (es : SEntries) (hes : goodEntries es = true) (g : Nat) :
    parseBlockContents (g + 1 + costEntries es) (renderEntries es) =
      some (Value.dict (denoteEntries [] es), []) := by
  cases es with
  | nil =>
    rw [show renderEntries SEntries.nil = ([] : Txt) by simp [renderEntries]]
    rw [show g + 1 + costEntries SEntries.nil = (g + 1) + 1 by simp [costEntries]]
    simp only [parseBlockContents]
    rw [show skipWs ([] : Txt) = ([] : Txt) from rfl]
    rw [if_neg (by simp)]
    rw [if_neg (by simp [lookIsList])]
    simp only [parseDict]
    simp [skipWs, skipWsAux, denoteEntries]
  | cons k v es' =>
    have hk : goodTok k = true := by
      simp [goodEntries] at hes
      exact hes.1
    obtain ⟨c, cs, hshape⟩ := goodTok_shape hk
    have hcfacts := delim_facts (goodTok_chars hk c (by simp [hshape])).1
    have hskipl : skipWs (renderEntries (SEntries.cons k v es'))
        = c :: (cs ++ '=' :: (renderV v ++ renderEntries es')) := by
      rw [show renderEntries (SEntries.cons k v es')
          = ' ' :: (k.data ++ '=' :: (renderV v ++ renderEntries es')) by simp [renderEntries]]
      rw [skipWs_cons_ws (by simp [isWsCh]) _, hshape]
      rw [show (c :: cs) ++ '=' :: (renderV v ++ renderEntries es')
          = c :: (cs ++ '=' :: (renderV v ++ renderEntries es')) by simp]
      exact skipWs_cons_other hcfacts.1 hcfacts.2.2.2.2 _
    have hnc1 : ((c : Char) = '}') = False := by simp [hcfacts.2.2.2.1]
    have hlook : lookIsList (c :: (cs ++ '=' :: (renderV v ++ renderEntries es'))) = false := by
      rw [show c :: (cs ++ '=' :: (renderV v ++ renderEntries es'))
          = k.data ++ '=' :: (renderV v ++ renderEntries es') by rw [hshape]; simp]
      exact lookIsList_dict hk _
    rw [show g + 1 + costEntries (SEntries.cons k v es')
        = (g + costEntries (SEntries.cons k v es')) + 1 by omega]
    simp only [parseBlockContents]
    rw [hskipl]
    simp only [List.head?_cons, Option.some.injEq, hnc1, if_false, hlook, Bool.false_eq_true]
    rw [renderEntries_eof (SEntries.cons k v es') hes ([]) g]

/-! ## Behaviour of the dict loop on the truncated tails of the claims -/

theorem parseDict_nil (acc : List (String × Value)) (h : Nat) :
    parseDict (h + 1) [] acc = some (acc, []) := by
  simp only [parseDict]
  simp [skipWs, skipWsAux]

theorem parseValue_nil (h : Nat) : parseValue (h + 1) [] = some (Value.str "", []) := by
  simp only [parseValue]
  simp [skipWs, skipWsAux, readToken, readTokenAux]
  rfl

/-- A trailing `key=` at end of input becomes an entry with the empty
string as value. -/
theorem tail_trailingEq {k : String} (hk : goodTok k = true)
    (acc : List (String × Value)) (h : Nat) :
    parseDict (h + 2) (k.data ++ ['=']) acc =
      some (insertDict acc k (Value.str ""), []) := by
  obtain ⟨c, cs, hshape⟩ := goodTok_shape hk
  have hcfacts := delim_facts (goodTok_chars hk c (by simp [hshape])).1
  have hkne : ¬ (k = "") := by
    simp [goodTok] at hk
    exact hk.1
  have hskipl : skipWs (k.data ++ ['=']) = c :: (cs ++ ['=']) := by
    rw [hshape]
    rw [show (c :: cs) ++ ['='] = c :: (cs ++ ['=']) by simp]
    exact skipWs_cons_other hcfacts.1 hcfacts.2.2.2.2 _
  have hread' : readToken (c :: (cs ++ ['='])) = (k, ['=']) := by
    rw [show c :: (cs ++ ['=']) = k.data ++ ['='] by rw [hshape]; simp]
    have := readToken_append (fun x hx => (goodTok_chars hk x hx).1)
      (Or.inr ⟨'=', [], rfl, by simp [isDelim]⟩)
    rwa [string_mk_data] at this
  have hnc1 : ((c : Char) = '}') = False := by simp [hcfacts.2.2.2.1]
  have hnc2 : ((c : Char) = '"') = False := by
    simp [(goodTok_chars hk c (by simp [hshape])).2]
  have hskipeq : skipWs (['='] : Txt) = ['='] :=
    skipWs_cons_other (by simp [isWsCh]) (by simp) _
  rw [show h + 2 = (h + 1) + 1 by omega]
  simp only [parseDict]
  rw [hskipl]
  simp only [List.head?_cons, Option.some.injEq, hnc1, hnc2, if_false, hread', hkne,
    hskipeq, if_true, List.drop_succ_cons, List.drop_zero]
  rw [if_neg (by simp)]
  simp only [parseValue_nil h]
  simp [skipWs, skipWsAux]

/-- A trailing `key="...` with an unterminated quoted string keeps the
collected characters as the value. -/
theorem tail_unterminatedStr {k st : String} (hk : goodTok k = true)
    (hs : goodStr st = true) (acc : List (String × Value)) (h : Nat) :
    parseDict (h + 3) (k.data ++ '=' :: '"' :: st.data) acc =
      some (insertDict acc k (Value.str st), []) := by
  obtain ⟨c, cs, hshape⟩ := goodTok_shape hk
  have hcfacts := delim_facts (goodTok_chars hk c (by simp [hshape])).1
  have hkne : ¬ (k = "") := by
    simp [goodTok] at hk
    exact hk.1
  have hskipl : skipWs (k.data ++ '=' :: '"' :: st.data) = c :: (cs ++ '=' :: '"' :: st.data) := by
    rw [hshape]
    rw [show (c :: cs) ++ '=' :: '"' :: st.data = c :: (cs ++ '=' :: '"' :: st.data) by simp]
    exact skipWs_cons_other hcfacts.1 hcfacts.2.2.2.2 _
  have hread' : readToken (c :: (cs ++ '=' :: '"' :: st.data)) = (k, '=' :: '"' :: st.data) := by
    rw [show c :: (cs ++ '=' :: '"' :: st.data) = k.data ++ '=' :: '"' :: st.data by
      rw [hshape]; simp]
    have := readToken_append (fun x hx => (goodTok_chars hk x hx).1)
      (Or.inr ⟨'=', '"' :: st.data, rfl, by simp [isDelim]⟩)
    rwa [string_mk_data] at this
  have hnc1 : ((c : Char) = '}') = False := by simp [hcfacts.2.2.2.1]
  have hnc2 : ((c : Char) = '"') = False := by
    simp [(goodTok_chars hk c (by simp [hshape])).2]
  have hskipeq : skipWs ('=' :: '"' :: st.data) = '=' :: '"' :: st.data :=
    skipWs_cons_other (by simp [isWsCh]) (by simp) _
  have hvalue : parseValue (h + 2) ('"' :: st.data) = some (Value.str st, []) := by
    rw [show h + 2 = (h + 1) + 1 by omega]
    simp only [parseValue]
    rw [skipWs_cons_other (by simp [isWsCh]) (by simp) _]
    rw [if_pos (by simp)]
    have hq : readQuotedAux st.data = (st.data, []) :=
      readQuotedAux_eof (fun c hc => (goodStr_chars hs c hc).1)
    simp [readQuoted, hq, string_mk_data]
  rw [show h + 3 = (h + 2) + 1 by omega]
  simp only [parseDict]
  rw [hskipl]
  simp only [List.head?_cons, Option.some.injEq, hnc1, hnc2, if_false, hread', hkne,
    hskipeq, if_true, List.drop_succ_cons, List.drop_zero]
  rw [if_neg (by simp)]
  simp only [hvalue]
  simp [skipWs, skipWsAux]

/-- A trailing `key={ ... ` block whose closing brace is missing still
yields the fully parsed dict for the entries before the truncation. -/
theorem tail_unterminatedBlock {k : String} (hk : goodTok k = true)
    {es2 : SEntries} (hes2 : goodEntries es2 = true)
    (acc : List (String × Value)) (h : Nat) :
    parseDict (h + 4 + costEntries es2) (k.data ++ '=' :: '{' :: renderEntries es2) acc =
      some (insertDict acc k (Value.dict (denoteEntries [] es2)), []) := by
  obtain ⟨c, cs, hshape⟩ := goodTok_shape hk
  have hcfacts := delim_facts (goodTok_chars hk c (by simp [hshape])).1
  have hkne : ¬ (k = "") := by
    simp [goodTok] at hk
    exact hk.1
  have hskipl : skipWs (k.data ++ '=' :: '{' :: renderEntries es2)
      = c :: (cs ++ '=' :: '{' :: renderEntries es2) := by
    rw [hshape]
    rw [show (c :: cs) ++ '=' :: '{' :: renderEntries es2
        = c :: (cs ++ '=' :: '{' :: renderEntries es2) by simp]
    exact skipWs_cons_other hcfacts.1 hcfacts.2.2.2.2 _
  have hread' : readToken (c :: (cs ++ '=' :: '{' :: renderEntries es2))
      = (k, '=' :: '{' :: renderEntries es2) := by
    rw [show c :: (cs ++ '=' :: '{' :: renderEntries es2)
        = k.data ++ '=' :: '{' :: renderEntries es2 by rw [hshape]; simp]
    have := readToken_append (fun x hx => (goodTok_chars hk x hx).1)
      (Or.inr ⟨'=', '{' :: renderEntries es2, rfl, by simp [isDelim]⟩)
    rwa [string_mk_data] at this
  have hnc1 : ((c : Char) = '}') = False := by simp [hcfacts.2.2.2.1]
  have hnc2 : ((c : Char) = '"') = False := by
    simp [(goodTok_chars hk c (by simp [hshape])).2]
  have hskipeq : skipWs ('=' :: '{' :: renderEntries es2) = '=' :: '{' :: renderEntries es2 :=
    skipWs_cons_other (by simp [isWsCh]) (by simp) _
  have hvalue : parseValue (h + 3 + costEntries es2) ('{' :: renderEntries es2)
      = some (Value.dict (denoteEntries [] es2), []) := by
    rw [show h + 3 + costEntries es2 = ((h + 2 + costEntries es2)) + 1 by omega]
    simp only [parseValue]
    rw [skipWs_cons_other (by simp [isWsCh]) (by simp) _]
    rw [if_neg (by simp), if_pos (by simp)]
    rw [show h + 2 + costEntries es2 = (h + 1 + costEntries es2) + 1 by omega]
    simp only [parseBlock, List.drop_succ_cons, List.drop_zero]
    rw [parseBlockContents_skipWs]
    rw [renderDictContents_eof es2 hes2 h]
    simp [skipWs, skipWsAux]
  rw [show h + 4 + costEntries es2 = (h + 3 + costEntries es2) + 1 by omega]
  simp only [parseDict]
  rw [hskipl]
  simp only [List.head?_cons, Option.some.injEq, hnc1, hnc2, if_false, hread', hkne,
    hskipeq, if_true, List.drop_succ_cons, List.drop_zero]
  rw [if_neg (by simp)]
  simp only [hvalue]
  rw [show h + 3 + costEntries es2 = (h + 2 + costEntries es2) + 1 by omega]
  rw [parseDict_nil _ (h + 2 + costEntries es2)]

/-! ## The document-level dict loop (entries in save-file layout, then an
arbitrary tail handled by a supplied continuation lemma) -/

theorem renderDoc_dict {tail : Txt} {tcost : Nat}
    {tout : List (String × Value) → List (String × Value)} {trest : Txt}
    (htail : ∀ (acc : List (String × Value)) (h : Nat),
      parseDict (h + tcost) tail acc = some (tout acc, trest)) :
    ∀ (es : SEntries), goodEntries es = true →
    ∀ (acc : List (String × Value)) (g : Nat),
    parseDict (g + docCostE es + tcost) (renderDoc es ++ tail) acc =
      some (tout (denoteEntries acc es), trest)
  | SEntries.nil, hes, acc, g => by
    rw [show renderDoc SEntries.nil ++ tail = tail by simp [renderDoc]]
    rw [show g + docCostE SEntries.nil + tcost = (g + 1) + tcost by simp [docCostE]]
    rw [htail acc (g + 1)]
    simp [denoteEntries]
  | SEntries.cons k v es', hes, acc, g => by
    have hk : goodTok k = true := by
      simp [goodEntries] at hes
      exact hes.1
    have hv : goodVal v = true := by
      simp [goodEntries] at hes
      exact hes.2.1
    have hes' : goodEntries es' = true := by
      simp [goodEntries] at hes
      exact hes.2.2
    obtain ⟨c, cs, hshape⟩ := goodTok_shape hk
    have hcfacts := delim_facts (goodTok_chars hk c (by simp [hshape])).1
    have hkne : ¬ (k = "") := by
      simp [goodTok] at hk
      exact hk.1
    have hfull : renderDoc (SEntries.cons k v es') ++ tail
        = k.data ++ '=' :: '\n' :: (renderV v ++ '\n' :: (renderDoc es' ++ tail)) := by
      simp [renderDoc]
    have hskipl : skipWs (renderDoc (SEntries.cons k v es') ++ tail)
        = c :: (cs ++ '=' :: '\n' :: (renderV v ++ '\n' :: (renderDoc es' ++ tail))) := by
      rw [hfull, hshape]
      rw [show (c :: cs) ++ '=' :: '\n' :: (renderV v ++ '\n' :: (renderDoc es' ++ tail))
          = c :: (cs ++ '=' :: '\n' :: (renderV v ++ '\n' :: (renderDoc es' ++ tail))) by simp]
      exact skipWs_cons_other hcfacts.1 hcfacts.2.2.2.2 _
    have hread' : readToken (c :: (cs ++ '=' :: '\n' :: (renderV v ++ '\n' :: (renderDoc es' ++ tail))))
        = (k, '=' :: '\n' :: (renderV v ++ '\n' :: (renderDoc es' ++ tail))) := by
      rw [show c :: (cs ++ '=' :: '\n' :: (renderV v ++ '\n' :: (renderDoc es' ++ tail)))
          = k.data ++ '=' :: '\n' :: (renderV v ++ '\n' :: (renderDoc es' ++ tail)) by
        rw [hshape]; simp]
      have := readToken_append (fun x hx => (goodTok_chars hk x hx).1)
        (Or.inr ⟨'=', '\n' :: (renderV v ++ '\n' :: (renderDoc es' ++ tail)), rfl,
          by simp [isDelim]⟩)
      rwa [string_mk_data] at this
    have hnc1 : ((c : Char) = '}') = False := by simp [hcfacts.2.2.2.1]
    have hnc2 : ((c : Char) = '"') = False := by
      simp [(goodTok_chars hk c (by simp [hshape])).2]
    have hskipeq : skipWs ('=' :: '\n' :: (renderV v ++ '\n' :: (renderDoc es' ++ tail)))
        = '=' :: '\n' :: (renderV v ++ '\n' :: (renderDoc es' ++ tail)) :=
      skipWs_cons_other (by simp [isWsCh]) (by simp) _
    have hvalue : parseValue (g + 3 + cost v + docCostE es' + tcost)
        ('\n' :: (renderV v ++ '\n' :: (renderDoc es' ++ tail)))
        = some (denote v, '\n' :: (renderDoc es' ++ tail)) := by
      rw [parseValue_congr (show skipWs ('\n' :: (renderV v ++ '\n' :: (renderDoc es' ++ tail)))
          = skipWs (renderV v ++ '\n' :: (renderDoc es' ++ tail)) from
        skipWs_cons_ws (by simp [isWsCh]) _)]
      rw [show g + 3 + cost v + docCostE es' + tcost
          = (g + 3 + docCostE es' + tcost) + cost v by omega]
      exact renderV_ok v hv ('\n' :: (renderDoc es' ++ tail)) (by simp [boundary])
        (g + 3 + docCostE es' + tcost)
    rw [show g + docCostE (SEntries.cons k v es') + tcost
        = (g + 3 + cost v + docCostE es' + tcost) + 1 by simp [docCostE]; omega]
    simp only [parseDict]
    rw [hskipl]
    simp only [List.head?_cons, Option.some.injEq, hnc1, hnc2, if_false, hread', hkne,
      hskipeq, if_true, List.drop_succ_cons, List.drop_zero]
    rw [if_neg (by simp)]
    simp only [hvalue]
    rw [parseDict_congr (show skipWs ('\n' :: (renderDoc es' ++ tail))
        = skipWs (renderDoc es' ++ tail) from skipWs_cons_ws (by simp [isWsCh]) _)]
    rw [show g + 3 + cost v + docCostE es' + tcost = (g + 3 + cost v) + docCostE es' + tcost by omega]
    rw [renderDoc_dict htail es' hes' (insertDict acc k (denote v)) (g + 3 + cost v)]
    simp [denoteEntries]

/-- The root-level structure lookahead on a document whose skipped prefix
starts with `key=` dispatches to the dict builder. -/
theorem parseBlockContents_keyhead {k : String} (hk : goodTok k = true) {Y : Txt} (l : Txt)
    (f : Nat) (hskip : skipWs l = k.data ++ '=' :: Y) :
    parseBlockContents (f + 1) l =
      (parseDict f l []).map (fun p => (Value.dict p.1, p.2)) := by
  obtain ⟨c, cs, hshape⟩ := goodTok_shape hk
  have hcfacts := delim_facts (goodTok_chars hk c (by simp [hshape])).1
  have hskip' : skipWs l = c :: (cs ++ '=' :: Y) := by rw [hskip, hshape]; simp
  have hlook : lookIsList (c :: (cs ++ '=' :: Y)) = false := by
    rw [show c :: (cs ++ '=' :: Y) = k.data ++ '=' :: Y by rw [hshape]; simp]
    exact lookIsList_dict hk Y
  have hnc1 : ((c : Char) = '}') = False := by simp [hcfacts.2.2.2.1]
  simp only [parseBlockContents]
  rw [hskip']
  simp only [List.head?_cons, Option.some.injEq, hnc1, if_false, hlook, Bool.false_eq_true]
  cases hpd : parseDict f l [] with
  | none => simp
  | some p => simp

/-! ## Whole-document parses of rendered documents -/

theorem skipWs_doc_cons {k : String} (hk : goodTok k = true) (v : SVal) (es' : SEntries)
    (tail : Txt) :
    skipWs (renderDoc (SEntries.cons k v es') ++ tail)
      = k.data ++ '=' :: ('\n' :: (renderV v ++ '\n' :: (renderDoc es' ++ tail))) := by
  obtain ⟨c, cs, hshape⟩ := goodTok_shape hk
  have hcfacts := delim_facts (goodTok_chars hk c (by simp [hshape])).1
  rw [show renderDoc (SEntries.cons k v es') ++ tail
      = k.data ++ '=' :: '\n' :: (renderV v ++ '\n' :: (renderDoc es' ++ tail)) by
    simp [renderDoc]]
  rw [hshape]
  rw [show (c :: cs) ++ '=' :: '\n' :: (renderV v ++ '\n' :: (renderDoc es' ++ tail))
      = c :: (cs ++ '=' :: '\n' :: (renderV v ++ '\n' :: (renderDoc es' ++ tail))) by simp]
  rw [skipWs_cons_other hcfacts.1 hcfacts.2.2.2.2 _]

/-- A rendered document followed by a tail has a `key=` shape after
whitespace skipping, provided the document is non-empty or the tail itself
starts with `key=`. -/
theorem doc_key_exists (es : SEntries) (hes : goodEntries es = true)
    (hne : ¬ (es = SEntries.nil)) (tail : Txt) :
    ∃ kh Y, goodTok kh = true ∧ skipWs (renderDoc es ++ tail) = kh.data ++ '=' :: Y := by
  cases es with
  | nil => exact absurd rfl hne
  | cons k v es' =>
    have hk : goodTok k = true := by
      simp [goodEntries] at hes
      exact hes.1
    exact ⟨k, '\n' :: (renderV v ++ '\n' :: (renderDoc es' ++ tail)), hk,
      skipWs_doc_cons hk v es' tail⟩

theorem doc_key_exists_tail (es : SEntries) (hes : goodEntries es = true)
    {k : String} (hk : goodTok k = true) (Z : Txt) :
    ∃ kh Y, goodTok kh = true ∧
      skipWs (renderDoc es ++ (k.data ++ '=' :: Z)) = kh.data ++ '=' :: Y := by
  cases es with
  | nil =>
    obtain ⟨c, cs, hshape⟩ := goodTok_shape hk
    have hcfacts := delim_facts (goodTok_chars hk c (by simp [hshape])).1
    refine ⟨k, Z, hk, ?_⟩
    rw [show renderDoc SEntries.nil ++ (k.data ++ '=' :: Z) = k.data ++ '=' :: Z by
      simp [renderDoc]]
    rw [hshape]
    rw [show (c :: cs) ++ '=' :: Z = c :: (cs ++ '=' :: Z) by simp]
    rw [skipWs_cons_other hcfacts.1 hcfacts.2.2.2.2 _]
  | cons k0 v es' =>
    have hk0 : goodTok k0 = true := by
      simp [goodEntries] at hes
      exact hes.1
    exact ⟨k0, '\n' :: (renderV v ++ '\n' :: (renderDoc es' ++ (k.data ++ '=' :: Z))), hk0,
      skipWs_doc_cons hk0 v es' _⟩

/-- Whole-document parse of a rendered document followed by a tail, given
a continuation lemma for the tail and a `key=` head shape. -/
theorem parseDocument_render {tail : Txt} {tcost : Nat}
    {tout : List (String × Value) → List (String × Value)} {trest : Txt}
    (htail : ∀ (acc : List (String × Value)) (h : Nat),
      parseDict (h + tcost) tail acc = some (tout acc, trest))
    (es : SEntries) (hes : goodEntries es = true)
    (hsk : ∃ kh Y, goodTok kh = true ∧
      skipWs (renderDoc es ++ tail) = kh.data ++ '=' :: Y) (g : Nat) :
    parseDocument (g + docCostE es + tcost + 1) (String.mk (renderDoc es ++ tail)) =
      some (Value.dict (tout (denoteEntries [] es))) := by
  obtain ⟨kh, Y, hkh, hskip⟩ := hsk
  rw [parseDocument]
  rw [show (String.mk (renderDoc es ++ tail)).data = renderDoc es ++ tail from rfl]
  rw [show g + docCostE es + tcost + 1 = (g + docCostE es + tcost) + 1 by omega]
  rw [parseBlockContents_keyhead hkh _ _ hskip]
  rw [renderDoc_dict htail es hes [] g]
  simp

/-- The fully parsed form of a plain rendered document (no tail). -/
theorem parseDocument_renderDoc (es : SEntries) (hes : goodEntries es = true)
    (hne : ¬ (es = SEntries.nil)) (g : Nat) :
    parseDocument (g + docCostE es + 2) (String.mk (renderDoc es)) =
      some (Value.dict (denoteEntries [] es)) := by
  have htail : ∀ (acc : List (String × Value)) (h : Nat),
      parseDict (h + 1) ([] : Txt) acc = some (id acc, ([] : Txt)) := by
    intro acc h
    simpa using parseDict_nil acc h
  have := parseDocument_render htail es hes
    (by simpa using doc_key_exists es hes hne ([] : Txt)) g
  simpa using this

/-! ## Properties of the duplicate-key merge -/

theorem lookupD_none_iff (acc : List (String × Value)) (k : String) :
    lookupD acc k = none ↔ (acc.any (fun e => e.1 = k)) = false := by
  induction acc with
  | nil => simp [lookupD]
  | cons e rest ih =>
    by_cases he : e.1 = k
    · simp [lookupD, he]
    · simp [lookupD, he, ih]

theorem insertDict_absent {acc : List (String × Value)} {k : String}
    (h : lookupD acc k = none) (v : Value) : insertDict acc k v = acc ++ [(k, v)] := by
  rw [insertDict, if_neg]
  rw [(lookupD_none_iff acc k).mp h]
  simp

theorem lookupD_append_right {acc : List (String × Value)} {k : String}
    (h : lookupD acc k = none) (b : List (String × Value)) :
    lookupD (acc ++ b) k = lookupD b k := by
  induction acc with
  | nil => simp
  | cons e rest ih =>
    by_cases he : e.1 = k
    · simp [lookupD, he] at h
    · simp [lookupD, he] at h ⊢
      exact ih h

theorem lookupD_append_left {acc : List (String × Value)} {k : String} {w : Value}
    (h : lookupD acc k = some w) (b : List (String × Value)) :
    lookupD (acc ++ b) k = some w := by
  induction acc with
  | nil => simp [lookupD] at h
  | cons e rest ih =>
    by_cases he : e.1 = k
    · simp [lookupD, he] at h ⊢
      exact h
    · simp [lookupD, he] at h ⊢
      exact ih h

theorem lookupD_map_other {k k' : String} (h : ¬ (k' = k)) (v : Value) :
    ∀ acc : List (String × Value),
    lookupD (acc.map (fun e => if e.1 = k' then (e.1, valueMerge e.2 v) else e)) k =
      lookupD acc k
  | [] => rfl
  | e :: rest => by
    by_cases he : e.1 = k'
    · have hek : ¬ (e.1 = k) := by rw [he]; exact h
      simp only [List.map_cons, if_pos he]
      rw [lookupD, if_neg hek, lookupD, if_neg hek]
      exact lookupD_map_other h v rest
    · simp only [List.map_cons, if_neg he]
      by_cases hek : e.1 = k
      · rw [lookupD, if_pos hek, lookupD, if_pos hek]
      · rw [lookupD, if_neg hek, lookupD, if_neg hek]
        exact lookupD_map_other h v rest

theorem lookupD_insertDict_other {acc : List (String × Value)} {k k' : String}
    (h : ¬ (k' = k)) (v : Value) :
    lookupD (insertDict acc k' v) k = lookupD acc k := by
  rw [insertDict]
  by_cases hp : (acc.any (fun e => e.1 = k')) = true
  · rw [if_pos hp]
    exact lookupD_map_other h v acc
  · rw [if_neg hp]
    cases hl : lookupD acc k with
    | some w => rw [lookupD_append_left hl]
    | none =>
      rw [lookupD_append_right hl]
      simp [lookupD, h]

theorem lookupD_map_merge {k : String} (v : Value) :
    ∀ (acc : List (String × Value)) (w : Value), lookupD acc k = some w →
    lookupD (acc.map (fun e => if e.1 = k then (e.1, valueMerge e.2 v) else e)) k =
      some (valueMerge w v)
  | [], w, h => by simp [lookupD] at h
  | e :: rest, w, h => by
    by_cases he : e.1 = k
    · rw [lookupD, if_pos he] at h
      simp only [List.map_cons, if_pos he]
      rw [lookupD, if_pos he]
      rw [Option.some.injEq] at h
      rw [h]
    · rw [lookupD, if_neg he] at h
      simp only [List.map_cons, if_neg he]
      rw [lookupD, if_neg he]
      exact lookupD_map_merge v rest w h

theorem lookupD_insertDict_merge {acc : List (String × Value)} {k : String} {w : Value}
    (h : lookupD acc k = some w) (v : Value) :
    lookupD (insertDict acc k v) k = some (valueMerge w v) := by
  have hp : (acc.any (fun e => e.1 = k)) = true := by
    cases hany : (acc.any (fun e => e.1 = k)) with
    | true => rfl
    | false =>
      rw [(lookupD_none_iff acc k).mpr hany] at h
      exact Option.noConfusion h
  rw [insertDict, if_pos hp]
  exact lookupD_map_merge v acc w h

theorem keysOf_map_merge (k : String) (v : Value) :
    ∀ acc : List (String × Value),
    keysOf (acc.map (fun e => if e.1 = k then (e.1, valueMerge e.2 v) else e)) = keysOf acc
  | [] => rfl
  | e :: rest => by
    have hrest := keysOf_map_merge k v rest
    by_cases he : e.1 = k
    · simp only [List.map_cons, if_pos he, keysOf, List.map_cons] at hrest ⊢
      rw [hrest]
    · simp only [List.map_cons, if_neg he, keysOf, List.map_cons] at hrest ⊢
      rw [hrest]

theorem keysOf_insertDict (acc : List (String × Value)) (k : String) (v : Value) :
    keysOf (insertDict acc k v) = keysOf acc ∨
      keysOf (insertDict acc k v) = keysOf acc ++ [k] := by
  rw [insertDict]
  by_cases hp : (acc.any (fun e => e.1 = k)) = true
  · left
    rw [if_pos hp]
    exact keysOf_map_merge k v acc
  · right
    rw [if_neg hp]
    simp [keysOf]

theorem lookupD_none_of_not_mem {acc : List (String × Value)} {k : String}
    (h : ¬ k ∈ keysOf acc) : lookupD acc k = none := by
  induction acc with
  | nil => rfl
  | cons e rest ih =>
    simp [keysOf] at h
    have he : ¬ (e.1 = k) := fun hc => h.1 hc.symm
    rw [lookupD, if_neg he]
    exact ih (by simp [keysOf]; exact h.2)

theorem mem_keysOf_of_lookupD {acc : List (String × Value)} {k : String} {w : Value}
    (h : lookupD acc k = some w) : k ∈ keysOf acc := by
  induction acc with
  | nil => simp [lookupD] at h
  | cons e rest ih =>
    by_cases he : e.1 = k
    · simp [keysOf, he]
    · simp [lookupD, he] at h
      simp [keysOf]
      right
      have := ih h
      simpa [keysOf] using this

/-! ## The denoted document as an association list -/

theorem denoteEntries_append : ∀ (a b : SEntries) (acc : List (String × Value)),
    denoteEntries acc (appendE a b) = denoteEntries (denoteEntries acc a) b
  | SEntries.nil, b, acc => rfl
  | SEntries.cons k v a', b, acc => by
    rw [show appendE (SEntries.cons k v a') b = SEntries.cons k v (appendE a' b) from rfl]
    rw [show denoteEntries acc (SEntries.cons k v (appendE a' b))
        = denoteEntries (insertDict acc k (denote v)) (appendE a' b) from rfl]
    rw [denoteEntries_append a' b (insertDict acc k (denote v))]
    rfl

theorem lookupD_denoteEntries_absent {nm : String} :
    ∀ (b : SEntries), containsKeyE b nm = false →
    ∀ acc, lookupD (denoteEntries acc b) nm = lookupD acc nm
  | SEntries.nil, _, acc => rfl
  | SEntries.cons k v rest, h, acc => by
    simp [containsKeyE] at h
    rw [show denoteEntries acc (SEntries.cons k v rest)
        = denoteEntries (insertDict acc k (denote v)) rest from rfl]
    rw [lookupD_denoteEntries_absent rest (by simpa using h.2) _]
    exact lookupD_insertDict_other h.1 _

/-- The value stored under a key that occurs exactly once in a rendered
document. -/
theorem lookupD_doc (pre post : SEntries) (name : String) (v : SVal)
    (hpre : containsKeyE pre name = false) (hpost : containsKeyE post name = false) :
    lookupD (denoteEntries [] (appendE pre (SEntries.cons name v post))) name =
      some (denote v) := by
  rw [denoteEntries_append]
  rw [show denoteEntries (denoteEntries [] pre) (SEntries.cons name v post)
      = denoteEntries (insertDict (denoteEntries [] pre) name (denote v)) post from rfl]
  rw [lookupD_denoteEntries_absent post hpost]
  have hA : lookupD (denoteEntries [] pre) name = none := by
    rw [lookupD_denoteEntries_absent pre hpre]
    rfl
  rw [insertDict_absent hA]
  rw [lookupD_append_right hA]
  simp [lookupD]

/-- With pairwise-distinct keys, the merge never fires and the parsed dict
is the plain entry list. -/
theorem denoteEntries_nodup : ∀ (es : SEntries) (acc : List (String × Value)),
    (entryKeys es).Nodup → (∀ x ∈ entryKeys es, ¬ x ∈ keysOf acc) →
    denoteEntries acc es = acc ++ denotePairs es
  | SEntries.nil, acc, _, _ => by simp [denoteEntries, denotePairs]
  | SEntries.cons k v rest, acc, hnd, hdisj => by
    have hk_not : ¬ k ∈ keysOf acc := hdisj k (by simp [entryKeys])
    have hins : insertDict acc k (denote v) = acc ++ [(k, denote v)] :=
      insertDict_absent (lookupD_none_of_not_mem hk_not) _
    have hnd' : (entryKeys rest).Nodup := by
      simp [entryKeys, List.nodup_cons] at hnd
      exact hnd.2
    have hknotrest : ¬ k ∈ entryKeys rest := by
      simp [entryKeys, List.nodup_cons] at hnd
      exact hnd.1
    have hdisj' : ∀ x ∈ entryKeys rest, ¬ x ∈ keysOf (acc ++ [(k, denote v)]) := by
      intro x hx hmem
      rw [show keysOf (acc ++ [(k, denote v)]) = keysOf acc ++ [k] by simp [keysOf]] at hmem
      rcases List.mem_append.mp hmem with hmem | hmem
      · exact hdisj x (by simp [entryKeys, hx]) hmem
      · simp at hmem
        rw [hmem] at hx
        exact hknotrest hx
    rw [show denoteEntries acc (SEntries.cons k v rest)
        = denoteEntries (insertDict acc k (denote v)) rest from rfl, hins]
    rw [denoteEntries_nodup rest (acc ++ [(k, denote v)]) hnd' hdisj']
    simp [denotePairs]

/-! ## Raw pairs versus the merged dict (claim C4 infrastructure) -/

theorem insertPairs_nil (acc : List (String × Value)) : insertPairs acc [] = acc := rfl

theorem insertPairs_cons (acc : List (String × Value)) (k : String) (v : Value)
    (ps : List (String × Value)) :
    insertPairs acc ((k, v) :: ps) = insertPairs (insertDict acc k v) ps := rfl

/-- `_parse_dict` is exactly the raw pair sequence folded through the
duplicate-key merge. -/
theorem parseDict_eq_pairs : ∀ (f : Nat) (l : Txt) (acc : List (String × Value)),
    parseDict f l acc = (parsePairs f l).map (fun p => (insertPairs acc p.1, p.2))
  | 0, _, _ => rfl
  | f + 1, l, acc => by
    simp only [parseDict, parsePairs]
    by_cases h1 : (skipWs l).head? = none ∨ (skipWs l).head? = some '}'
    · rw [if_pos h1, if_pos h1]
      simp [insertPairs]
    · rw [if_neg h1, if_neg h1]
      by_cases h2 : ((if (skipWs l).head? = some '"' then readQuoted (skipWs l)
          else readToken (skipWs l)).1) = ""
      · rw [if_pos h2, if_pos h2]
        simp [insertPairs]
      · rw [if_neg h2, if_neg h2]
        by_cases h3 : (skipWs ((if (skipWs l).head? = some '"' then readQuoted (skipWs l)
            else readToken (skipWs l)).2)).head? = some '='
        · rw [if_pos h3, if_pos h3]
          cases hpv : parseValue f ((skipWs ((if (skipWs l).head? = some '"'
              then readQuoted (skipWs l) else readToken (skipWs l)).2)).drop 1) with
          | none => rfl
          | some p =>
            obtain ⟨v, r''⟩ := p
            show parseDict f r'' (insertDict acc ((if (skipWs l).head? = some '"' then
                readQuoted (skipWs l) else readToken (skipWs l)).1) v)
              = Option.map (fun p => (insertPairs acc p.1, p.2))
                  (match parsePairs f r'' with
                   | none => none
                   | some (ps, rf) => some ((((if (skipWs l).head? = some '"' then
                       readQuoted (skipWs l) else readToken (skipWs l)).1), v) :: ps, rf))
            rw [parseDict_eq_pairs f r'']
            cases parsePairs f r'' with
            | none => rfl
            | some q =>
              obtain ⟨ps, rf⟩ := q
              simp [insertPairs]
        · rw [if_neg h3, if_neg h3]
          simp [insertPairs]

theorem countKey_pos_of_lookup {ps : List (String × Value)} {k : String} {w : Value}
    (h : lookupD ps k = some w) : 1 ≤ countKey ps k := by
  induction ps with
  | nil => simp [lookupD] at h
  | cons e rest ih =>
    by_cases he : e.1 = k
    · simp [countKey, List.filter_cons, he]
    · rw [lookupD, if_neg he] at h
      have := ih h
      simpa [countKey, List.filter_cons, he] using this

theorem lookupD_none_of_count0 {ps : List (String × Value)} {k : String}
    (h : countKey ps k = 0) : lookupD ps k = none := by
  cases hl : lookupD ps k with
  | none => rfl
  | some w =>
    have := countKey_pos_of_lookup hl
    omega

theorem valsK_nil_of_count0 {ps : List (String × Value)} {k : String}
    (h : countKey ps k = 0) : valsK ps k = [] := by
  rw [valsK]
  rw [List.length_eq_zero.mp h]
  rfl

theorem countKey_cons_pos {e : String × Value} {rest : List (String × Value)} {k : String}
    (he : e.1 = k) : countKey (e :: rest) k = countKey rest k + 1 := by
  simp [countKey, List.filter_cons, he]

theorem countKey_cons_neg {e : String × Value} {rest : List (String × Value)} {k : String}
    (he : ¬ (e.1 = k)) : countKey (e :: rest) k = countKey rest k := by
  simp [countKey, List.filter_cons, he]

theorem valsK_cons_pos {e : String × Value} {rest : List (String × Value)} {k : String}
    (he : e.1 = k) : valsK (e :: rest) k = e.2 :: valsK rest k := by
  simp [valsK, List.filter_cons, he]

theorem valsK_cons_neg {e : String × Value} {rest : List (String × Value)} {k : String}
    (he : ¬ (e.1 = k)) : valsK (e :: rest) k = valsK rest k := by
  simp [valsK, List.filter_cons, he]

theorem count1_vals {k : String} :
    ∀ {ps : List (String × Value)}, countKey ps k = 1 →
    ∀ {w : Value}, lookupD ps k = some w → valsK ps k = [w] := by
  intro ps
  induction ps with
  | nil => intro h; simp [countKey] at h
  | cons e rest ih =>
    intro h w hl
    by_cases he : e.1 = k
    · have h1 : countKey rest k = 0 := by
        rw [countKey_cons_pos he] at h
        omega
      rw [lookupD, if_pos he, Option.some.injEq] at hl
      rw [valsK_cons_pos he, valsK_nil_of_count0 h1, hl]
    · rw [countKey_cons_neg he] at h
      rw [lookupD, if_neg he] at hl
      rw [valsK_cons_neg he]
      exact ih h hl

theorem lookup_some_of_mem_keys {ps : List (String × Value)} {k : String}
    (h : k ∈ keysOf ps) : ∃ w, lookupD ps k = some w := by
  induction ps with
  | nil => simp [keysOf] at h
  | cons e rest ih =>
    by_cases he : e.1 = k
    · exact ⟨e.2, by rw [lookupD, if_pos he]⟩
    · simp [keysOf] at h
      rcases h with h | h
      · exact absurd h.symm he
      · obtain ⟨w, hw⟩ := ih (by simpa [keysOf] using h)
        exact ⟨w, by rw [lookupD, if_neg he]; exact hw⟩

theorem insertDict_nodup {acc : List (String × Value)} (h : (keysOf acc).Nodup)
    (k : String) (v : Value) : (keysOf (insertDict acc k v)).Nodup := by
  rcases keysOf_insertDict acc k v with hk | hk
  · rw [hk]; exact h
  · rw [hk]
    have hnotmem : ¬ k ∈ keysOf acc := by
      intro hmem
      obtain ⟨w, hw⟩ := lookup_some_of_mem_keys hmem
      rw [insertDict] at hk
      by_cases hp : (acc.any (fun e => e.1 = k)) = true
      · rw [if_pos hp] at hk
        have := keysOf_map_merge k v acc
        rw [this] at hk
        have hlen := congrArg List.length hk
        simp at hlen
      · have hfalse : (acc.any (fun e => e.1 = k)) = false := by
          cases hany : (acc.any (fun e => e.1 = k)) with
          | true => exact absurd hany hp
          | false => rfl
        rw [(lookupD_none_iff acc k).mpr hfalse] at hw
        exact Option.noConfusion hw
    simp [List.nodup_append, h, hnotmem]

theorem insertPairs_nodup : ∀ (ps acc : List (String × Value)),
    (keysOf acc).Nodup → (keysOf (insertPairs acc ps)).Nodup
  | [], acc, h => h
  | (k, v) :: ps, acc, h => by
    rw [insertPairs_cons]
    exact insertPairs_nodup ps _ (insertDict_nodup h k v)

theorem lookupD_snoc {ps : List (String × Value)} {k : String} (p : String × Value) :
    lookupD (ps ++ [p]) k =
      match lookupD ps k with
      | some w => some w
      | none => if p.1 = k then some p.2 else none := by
  cases hl : lookupD ps k with
  | some w => rw [lookupD_append_left hl]
  | none =>
    rw [lookupD_append_right hl]
    simp [lookupD]

theorem countKey_snoc {ps : List (String × Value)} {k : String} (p : String × Value) :
    countKey (ps ++ [p]) k = countKey ps k + (if p.1 = k then 1 else 0) := by
  by_cases hp : p.1 = k <;> simp [countKey, List.filter_append, List.filter_cons, hp]

theorem valsK_snoc_pos {ps : List (String × Value)} {k : String} {p : String × Value}
    (hp : p.1 = k) : valsK (ps ++ [p]) k = valsK ps k ++ [p.2] := by
  simp [valsK, List.filter_append, List.filter_cons, hp]

theorem valsK_snoc_neg {ps : List (String × Value)} {k : String} {p : String × Value}
    (hp : ¬ (p.1 = k)) : valsK (ps ++ [p]) k = valsK ps k := by
  simp [valsK, List.filter_append, List.filter_cons, hp]

theorem insertPairs_snoc (ps : List (String × Value)) (p : String × Value) :
    insertPairs [] (ps ++ [p]) = insertDict (insertPairs [] ps) p.1 p.2 := by
  simp [insertPairs, List.foldl_append]

theorem lookup_some_of_count_pos {k : String} :
    ∀ {ps : List (String × Value)}, 1 ≤ countKey ps k → ∃ w, lookupD ps k = some w := by
  intro ps
  induction ps with
  | nil => intro h; simp [countKey] at h
  | cons e rest ih =>
    intro h
    by_cases he : e.1 = k
    · exact ⟨e.2, by rw [lookupD, if_pos he]⟩
    · rw [countKey_cons_neg he] at h
      obtain ⟨w, hw⟩ := ih h
      exact ⟨w, by rw [lookupD, if_neg he]; exact hw⟩

theorem valueMerge_not_seq {w : Value} (h : isSeq w = false) (v : Value) :
    valueMerge w v = Value.list [w, v] := by
  cases w <;> simp [valueMerge, isSeq] at h ⊢

/-- The duplicate-key fold law: a key seen once keeps its value; a key
seen several times whose first value was not itself a sequence ends up as
the sequence of all its values in encounter order. -/
theorem insertPairs_law : ∀ (ps : List (String × Value)) (k : String),
    (countKey ps k = 0 → lookupD (insertPairs [] ps) k = none) ∧
    (countKey ps k = 1 → lookupD (insertPairs [] ps) k = lookupD ps k) ∧
    (2 ≤ countKey ps k → (∀ w, lookupD ps k = some w → isSeq w = false) →
      lookupD (insertPairs [] ps) k = some (Value.list (valsK ps k))) := by
  intro ps k
  induction ps using List.reverseRecOn with
  | nil =>
    refine ⟨fun _ => rfl, fun h => by simp [countKey] at h, fun h _ => by simp [countKey] at h⟩
  | append_singleton ps p ih =>
    rw [insertPairs_snoc, countKey_snoc, lookupD_snoc]
    by_cases hp : p.1 = k
    · rw [if_pos hp, hp]
      refine ⟨fun h => by omega, ?_, ?_⟩
      · intro h
        have h0 : countKey ps k = 0 := by omega
        have hnone := ih.1 h0
        rw [insertDict_absent hnone, lookupD_append_right hnone]
        rw [lookupD_none_of_count0 h0]
        simp [lookupD]
      · intro h hfst
        have h1 : 1 ≤ countKey ps k := by omega
        by_cases hone : countKey ps k = 1
        · obtain ⟨w0, hw0⟩ := lookup_some_of_count_pos h1
          have hbuilt : lookupD (insertPairs [] ps) k = some w0 := by
            rw [ih.2.1 hone]
            exact hw0
          have hw0notseq : isSeq w0 = false := hfst w0 (by rw [hw0])
          rw [lookupD_insertDict_merge hbuilt]
          rw [valueMerge_not_seq hw0notseq]
          rw [valsK_snoc_pos hp]
          rw [count1_vals hone hw0]
          rfl
        · have h2 : 2 ≤ countKey ps k := by omega
          have hfst' : ∀ w, lookupD ps k = some w → isSeq w = false := by
            intro w hw
            exact hfst w (by rw [hw])
          have hbuilt := ih.2.2 h2 hfst'
          rw [lookupD_insertDict_merge hbuilt]
          rw [valsK_snoc_pos hp]
          rfl
    · rw [if_neg hp]
      have hother : lookupD (insertDict (insertPairs [] ps) p.1 p.2) k
          = lookupD (insertPairs [] ps) k := lookupD_insertDict_other hp _
      refine ⟨?_, ?_, ?_⟩
      · intro h
        rw [hother]
        exact ih.1 (by omega)
      · intro h
        rw [hother, ih.2.1 (by omega)]
        cases hl : lookupD ps k with
        | some w => rfl
        | none => simp [hp]
      · intro h hfst
        rw [hother, valsK_snoc_neg hp]
        refine ih.2.2 (by omega) ?_
        intro w hw
        exact hfst w (by rw [hw])

/-! ## Divergence of the list loop on a stray `=` (claim C2) -/

theorem parseValue_stuckEq (f : Nat) :
    parseValue (f + 1) ['='] = some (Value.str "", ['=']) := by
  simp only [parseValue]
  rw [show skipWs ['='] = ['='] from by simp [skipWs, skipWsAux, isWsCh]]
  rw [if_neg (by simp), if_neg (by simp)]
  simp [readToken, readTokenAux, isDelim, isWsCh]
  rfl

/-- At a stray `=` inside a list, `_parse_value` returns an empty token
without advancing, so `_parse_list` repeats the same state forever: no
amount of fuel finishes the loop. -/
theorem divergeL4 : ∀ f : Nat, parseList f ['='] = none
  | 0 => rfl
  | f + 1 => by
    simp only [parseList]
    rw [show skipWs ['='] = ['='] from by simp [skipWs, skipWsAux, isWsCh]]
    rw [if_neg (by simp)]
    cases f with
    | zero => rfl
    | succ f1 =>
      rw [parseValue_stuckEq f1]
      simp [divergeL4 (f1 + 1)]

theorem divergeL3 : ∀ f : Nat, parseList f [' ', '='] = none
  | 0 => rfl
  | f + 1 => by
    simp only [parseList]
    rw [show skipWs [' ', '='] = ['='] from by simp [skipWs, skipWsAux, isWsCh]]
    rw [if_neg (by simp)]
    cases f with
    | zero => rfl
    | succ f1 =>
      rw [parseValue_stuckEq f1]
      simp [divergeL4 (f1 + 1)]

theorem divergeL2 : ∀ f : Nat, parseList f [' ', 'a', ' ', '='] = none
  | 0 => rfl
  | f + 1 => by
    simp only [parseList]
    rw [show skipWs [' ', 'a', ' ', '='] = ['a', ' ', '='] from by
      simp [skipWs, skipWsAux, isWsCh]]
    rw [if_neg (by simp)]
    cases f with
    | zero => rfl
    | succ f1 =>
      rw [show parseValue (f1 + 1) ['a', ' ', '=']
          = some (classify (String.mk ['a']), [' ', '=']) from by
        simp only [parseValue]
        rw [show skipWs ['a', ' ', '='] = ['a', ' ', '='] from by
          simp [skipWs, skipWsAux, isWsCh]]
        rw [if_neg (by simp), if_neg (by simp)]
        simp [readToken, readTokenAux, isDelim, isWsCh]]
      simp [divergeL3 (f1 + 1)]

theorem divergeL1 : ∀ f : Nat, parseList f ['a', ' ', 'a', ' ', '='] = none
  | 0 => rfl
  | f + 1 => by
    simp only [parseList]
    rw [show skipWs ['a', ' ', 'a', ' ', '='] = ['a', ' ', 'a', ' ', '='] from by
      simp [skipWs, skipWsAux, isWsCh]]
    rw [if_neg (by simp)]
    cases f with
    | zero => rfl
    | succ f1 =>
      rw [show parseValue (f1 + 1) ['a', ' ', 'a', ' ', '=']
          = some (classify (String.mk ['a']), [' ', 'a', ' ', '=']) from by
        simp only [parseValue]
        rw [show skipWs ['a', ' ', 'a', ' ', '='] = ['a', ' ', 'a', ' ', '='] from by
          simp [skipWs, skipWsAux, isWsCh]]
        rw [if_neg (by simp), if_neg (by simp)]
        simp [readToken, readTokenAux, isDelim, isWsCh]]
      simp [divergeL2 (f1 + 1)]

theorem divergeContents : ∀ f : Nat, parseBlockContents f ['a', ' ', 'a', ' ', '='] = none := by
  intro f
  cases f with
  | zero => rfl
  | succ f =>
    simp only [parseBlockContents]
    rw [show skipWs ['a', ' ', 'a', ' ', '='] = ['a', ' ', 'a', ' ', '='] from by
      simp [skipWs, skipWsAux, isWsCh]]
    rw [if_neg (by simp)]
    rw [if_pos (by decide)]
    rw [divergeL1 f]

/-! ## Rendered values contain no newline -/

mutual

theorem renderV_no_nl : ∀ (v : SVal), goodVal v = true → ∀ c ∈ renderV v, ¬ (c = '\n')
  | SVal.atom t, hv, c, hc => by
    simp only [renderV] at hc
    have := (goodTok_chars (by simpa [goodVal] using hv) c hc).1
    have hf := delim_facts this
    intro hcc
    rw [hcc] at hf
    simpa [isWsCh] using hf.1
  | SVal.quoted st, hv, c, hc => by
    simp only [renderV] at hc
    rcases List.mem_cons.mp hc with hc | hc
    · rw [hc]; simp
    · rcases List.mem_append.mp hc with hc | hc
      · exact (goodStr_chars (by simpa [goodVal] using hv) c hc).2.2.2
      · simp at hc
        rw [hc]
        simp
  | SVal.blockD es, hv, c, hc => by
    simp only [renderV] at hc
    rcases List.mem_cons.mp hc with hc | hc
    · rw [hc]; simp
    · rcases List.mem_append.mp hc with hc | hc
      · exact renderEntries_no_nl es (by simpa [goodVal] using hv) c hc
      · simp at hc
        rw [hc]
        simp
  | SVal.blockL its, hv, c, hc => by
    simp only [renderV] at hc
    have hits : goodItems its = true := by
      simp [goodVal] at hv
      exact hv.1
    rcases List.mem_cons.mp hc with hc | hc
    · rw [hc]; simp
    · rcases List.mem_append.mp hc with hc | hc
      · exact renderItems_no_nl its hits c hc
      · simp at hc
        rw [hc]
        simp

theorem renderEntries_no_nl : ∀ (es : SEntries), goodEntries es = true →
    ∀ c ∈ renderEntries es, ¬ (c = '\n')
  | SEntries.nil, _, c, hc => by simp [renderEntries] at hc
  | SEntries.cons k v rest, hes, c, hc => by
    have hk : goodTok k = true := by
      simp [goodEntries] at hes
      exact hes.1
    have hv : goodVal v = true := by
      simp [goodEntries] at hes
      exact hes.2.1
    have hrest : goodEntries rest = true := by
      simp [goodEntries] at hes
      exact hes.2.2
    simp only [renderEntries] at hc
    rcases List.mem_cons.mp hc with hc | hc
    · rw [hc]; simp
    · rcases List.mem_append.mp hc with hc | hc
      · rcases List.mem_append.mp hc with hc | hc
        · have := delim_facts (goodTok_chars hk c hc).1
          intro hcc
          rw [hcc] at this
          simpa [isWsCh] using this.1
        · rcases List.mem_cons.mp hc with hc | hc
          · rw [hc]; simp
          · exact renderV_no_nl v hv c hc
      · exact renderEntries_no_nl rest hrest c hc

theorem renderItems_no_nl : ∀ (its : SItems), goodItems its = true →
    ∀ c ∈ renderItems its, ¬ (c = '\n')
  | SItems.nil, _, c, hc => by simp [renderItems] at hc
  | SItems.cons v rest, hits, c, hc => by
    have hv : goodVal v = true := by
      simp [goodItems] at hits
      exact hits.1
    have hrest : goodItems rest = true := by
      simp [goodItems] at hits
      exact hits.2
    simp only [renderItems] at hc
    rcases List.mem_cons.mp hc with hc | hc
    · rw [hc]; simp
    · rcases List.mem_append.mp hc with hc | hc
      · exact renderV_no_nl v hv c hc
      · exact renderItems_no_nl rest hrest c hc

end

/-! ## Scanning a rendered document for a line-anchored `name=` -/

theorem findAnchor_false_skip (pat : Txt) : ∀ (seg : Txt), (∀ c ∈ seg, ¬ (c = '\n')) →
    ∀ l, findAnchor pat false (seg ++ l) = findAnchor pat false l
  | [], _, l => rfl
  | c :: seg', h, l => by
    rw [List.cons_append, findAnchor]
    rw [if_neg (by simp)]
    have hc : ¬ (c = '\n') := h c (List.mem_cons_self _ _)
    simp only [decide_eq_false hc]
    exact findAnchor_false_skip pat seg' (fun x hx => h x (List.mem_cons_of_mem _ hx)) l

theorem findAnchor_cons_false {pat : Txt} {c : Char} (hc : ¬ (c = '\n')) (t : Txt) :
    findAnchor pat false (c :: t) = findAnchor pat false t := by
  rw [findAnchor]
  rw [if_neg (by simp)]
  simp only [decide_eq_false hc]

theorem findAnchor_cons_nl (pat : Txt) (b : Bool) (t : Txt)
    (hnostart : ¬ (b = true ∧ startsWith pat ('\n' :: t) = true)) :
    findAnchor pat b ('\n' :: t) = findAnchor pat true t := by
  rw [findAnchor]
  rw [if_neg (by
    intro hcon
    exact hnostart ⟨by simpa using hcon.1, by simpa using hcon.2⟩)]
  simp

theorem not_nl_of_isWsCh_false {c : Char} (h : isWsCh c = false) : ¬ (c = '\n') := by
  intro hc
  rw [hc] at h
  simp [isWsCh] at h

theorem goodTok_no_eq {t : String} (h : goodTok t = true) : ∀ c ∈ t.data, ¬ (c = '=') :=
  fun c hc => (delim_facts (goodTok_chars h c hc).1).2.1

theorem goodTok_no_nl {t : String} (h : goodTok t = true) : ∀ c ∈ t.data, ¬ (c = '\n') :=
  fun c hc => not_nl_of_isWsCh_false (delim_facts (goodTok_chars h c hc).1).1

/-- A rendered value followed by a newline never matches the anchored
`name=` pattern: a body line cannot start a new `name=` match. -/
theorem startsWith_pat_body {name : String} (hname : goodTok name = true)
    {v : SVal} (hv : goodVal v = true) (X : Txt) :
    startsWith (name.data ++ ['=']) (renderV v ++ '\n' :: X) = false := by
  cases v with
  | atom t =>
    simp only [renderV]
    exact startsWith_keyNl (goodTok_no_eq hname) (goodTok_no_nl hname)
      (goodTok_no_eq (by simpa [goodVal] using hv)) X
  | quoted st =>
    obtain ⟨n0, ns, hnd⟩ := goodTok_shape hname
    have hq : ¬ (n0 = '"') := (goodTok_chars hname n0 (by simp [hnd])).2
    simp only [renderV]
    rw [hnd]
    simp [startsWith, hq]
  | blockD es =>
    obtain ⟨n0, ns, hnd⟩ := goodTok_shape hname
    have hb : ¬ (n0 = '{') :=
      (delim_facts (goodTok_chars hname n0 (by simp [hnd])).1).2.2.1
    simp only [renderV]
    rw [hnd]
    simp [startsWith, hb]
  | blockL its =>
    obtain ⟨n0, ns, hnd⟩ := goodTok_shape hname
    have hb : ¬ (n0 = '{') :=
      (delim_facts (goodTok_chars hname n0 (by simp [hnd])).1).2.2.1
    simp only [renderV]
    rw [hnd]
    simp [startsWith, hb]

/-- Scanning past one non-matching `key=` line followed by a value line
leaves the anchored search unchanged. -/
theorem findAnchor_entry_skip {name k : String} (hname : goodTok name = true)
    (hk : goodTok k = true) (hne : ¬ (k = name)) {v : SVal} (hv : goodVal v = true)
    (X : Txt) :
    findAnchor (name.data ++ ['=']) true
        (k.data ++ '=' :: '\n' :: (renderV v ++ '\n' :: X))
      = findAnchor (name.data ++ ['=']) true X := by
  obtain ⟨c, cs, hkd⟩ := goodTok_shape hk
  have h0 : startsWith (name.data ++ ['='])
      (k.data ++ '=' :: '\n' :: (renderV v ++ '\n' :: X)) = false := by
    cases hsw : startsWith (name.data ++ ['='])
        (k.data ++ '=' :: '\n' :: (renderV v ++ '\n' :: X)) with
    | false => rfl
    | true =>
      exfalso
      have hdata : name.data = k.data :=
        startsWith_keyEq (goodTok_no_eq hname) (goodTok_no_eq hk) _ hsw
      apply hne
      rw [← string_mk_data k, ← string_mk_data name, hdata]
  rw [hkd] at h0 ⊢
  rw [List.cons_append] at h0 ⊢
  rw [findAnchor, if_neg (by simp [h0])]
  have hcnl : ¬ (c = '\n') :=
    not_nl_of_isWsCh_false (delim_facts (goodTok_chars hk c (by simp [hkd])).1).1
  simp only [decide_eq_false hcnl]
  have hseg : ∀ x ∈ cs ++ ['='], ¬ (x = '\n') := by
    intro x hx
    rcases List.mem_append.mp hx with hx | hx
    · apply goodTok_no_nl hk x
      rw [hkd]
      exact List.mem_cons_of_mem _ hx
    · simp at hx
      rw [hx]
      simp
  rw [show cs ++ '=' :: '\n' :: (renderV v ++ '\n' :: X)
        = (cs ++ ['=']) ++ ('\n' :: (renderV v ++ '\n' :: X)) by simp]
  rw [findAnchor_false_skip _ _ hseg _]
  rw [findAnchor, if_neg (by simp)]
  have hbody : startsWith (name.data ++ ['=']) (renderV v ++ '\n' :: X) = false :=
    startsWith_pat_body hname hv X
  obtain ⟨c0, cs0, hrv, hws0, hh0, he0, hb0, hnl0⟩ := renderV_head_facts hv
  rw [hrv] at hbody
  rw [List.cons_append] at hbody
  rw [hrv, List.cons_append, findAnchor, if_neg (by simp [hbody])]
  simp only [decide_eq_false hnl0]
  have hseg0 : ∀ x ∈ cs0, ¬ (x = '\n') := by
    intro x hx
    apply renderV_no_nl v hv x
    rw [hrv]
    exact List.mem_cons_of_mem _ hx
  rw [findAnchor_false_skip _ _ hseg0 _]
  rw [findAnchor, if_neg (by simp)]
  rfl

/-- The anchored search finds the pattern when the text starts with it. -/
theorem findAnchor_at (pat T : Txt) (c : Char) (cs : Txt) (hp : pat = c :: cs) :
    findAnchor pat true (pat ++ T) = some T := by
  subst hp
  rw [List.cons_append, findAnchor, if_pos ⟨rfl, by
    rw [← List.cons_append]
    exact startsWith_refl_append _ _⟩]
  rw [← List.cons_append, List.drop_left]

theorem renderDoc_append : ∀ (a b : SEntries),
    renderDoc (appendE a b) = renderDoc a ++ renderDoc b
  | SEntries.nil, _ => rfl
  | SEntries.cons k v rest, b => by
    simp [appendE, renderDoc, renderDoc_append rest b]

/-- Scanning past a rendered prefix of entries whose keys all differ from
`name` leaves the anchored search unchanged. -/
theorem findAnchor_pre_skip (name : String) (hname : goodTok name = true) :
    ∀ (pre : SEntries), goodEntries pre = true → containsKeyE pre name = false →
    ∀ X : Txt, findAnchor (name.data ++ ['=']) true (renderDoc pre ++ X)
      = findAnchor (name.data ++ ['=']) true X
  | SEntries.nil, _, _, X => rfl
  | SEntries.cons k v rest, hg, hck, X => by
    have hk : goodTok k = true := by
      simp [goodEntries] at hg
      exact hg.1
    have hv : goodVal v = true := by
      simp [goodEntries] at hg
      exact hg.2.1
    have hrest : goodEntries rest = true := by
      simp [goodEntries] at hg
      exact hg.2.2
    have hne : ¬ (k = name) := by
      simp [containsKeyE] at hck
      exact hck.1
    have hckr : containsKeyE rest name = false := by
      simp [containsKeyE] at hck
      exact hck.2
    have hbridge : renderDoc (SEntries.cons k v rest) ++ X
        = k.data ++ '=' :: '\n' :: (renderV v ++ '\n' :: (renderDoc rest ++ X)) := by
      simp [renderDoc]
    rw [hbridge, findAnchor_entry_skip hname hk hne hv (renderDoc rest ++ X)]
    exact findAnchor_pre_skip name hname rest hrest hckr X

/-! ## Brace counting over rendered fragments -/

theorem goodTok_no_braces {t : String} (h : goodTok t = true) :
    ∀ c ∈ t.data, ¬ (c = '{') ∧ ¬ (c = '}') := by
  intro c hc
  have := delim_facts (goodTok_chars h c hc).1
  exact ⟨this.2.2.1, this.2.2.2.1⟩

mutual

theorem braceV : ∀ (v : SVal), goodVal v = true → ∀ cnt rest, 0 < cnt →
    braceAux cnt (renderV v ++ rest)
      = ((renderV v ++ (braceAux cnt rest).1, (braceAux cnt rest).2) : Txt × Txt)
  | SVal.atom t, hv, cnt, rest, hcnt => by
    simp only [renderV]
    exact braceAux_seg (goodTok_no_braces (by simpa [goodVal] using hv)) cnt rest hcnt
  | SVal.quoted st, hv, cnt, rest, hcnt => by
    simp only [renderV]
    have hch : ∀ c ∈ ('"' :: st.data ++ ['"'] : Txt), ¬ (c = '{') ∧ ¬ (c = '}') := by
      intro c hc
      rcases List.mem_cons.mp hc with hc | hc
      · rw [hc]; simp
      · rcases List.mem_append.mp hc with hc | hc
        · have := goodStr_chars (by simpa [goodVal] using hv) c hc
          exact ⟨this.2.1, this.2.2.1⟩
        · simp at hc
          rw [hc]
          simp
    exact braceAux_seg hch cnt rest hcnt
  | SVal.blockD es, hv, cnt, rest, hcnt => by
    have hes : goodEntries es = true := by simpa [goodVal] using hv
    have hne : ¬ (cnt = 0) := by omega
    rw [show renderV (SVal.blockD es) ++ rest
        = '{' :: (renderEntries es ++ '}' :: rest) by simp [renderV]]
    have hE := braceE es hes (cnt + 1) ('}' :: rest) (by omega)
    simp [braceAux, hE, hne, renderV]
  | SVal.blockL its, hv, cnt, rest, hcnt => by
    have hits : goodItems its = true := by
      simp [goodVal] at hv
      exact hv.1
    have hne : ¬ (cnt = 0) := by omega
    rw [show renderV (SVal.blockL its) ++ rest
        = '{' :: (renderItems its ++ '}' :: rest) by simp [renderV]]
    have hI := braceI its hits (cnt + 1) ('}' :: rest) (by omega)
    simp [braceAux, hI, hne, renderV]

theorem braceE : ∀ (es : SEntries), goodEntries es = true → ∀ cnt rest, 0 < cnt →
    braceAux cnt (renderEntries es ++ rest)
      = ((renderEntries es ++ (braceAux cnt rest).1, (braceAux cnt rest).2) : Txt × Txt)
  | SEntries.nil, _, cnt, rest, _ => by simp [renderEntries]
  | SEntries.cons k v rest', hes, cnt, rest, hcnt => by
    have hk : goodTok k = true := by
      simp [goodEntries] at hes
      exact hes.1
    have hv : goodVal v = true := by
      simp [goodEntries] at hes
      exact hes.2.1
    have hrest : goodEntries rest' = true := by
      simp [goodEntries] at hes
      exact hes.2.2
    have hseg : ∀ c ∈ (' ' :: k.data ++ ['='] : Txt), ¬ (c = '{') ∧ ¬ (c = '}') := by
      intro c hc
      rcases List.mem_cons.mp hc with hc | hc
      · rw [hc]; simp
      · rcases List.mem_append.mp hc with hc | hc
        · exact goodTok_no_braces hk c hc
        · simp at hc
          rw [hc]
          simp
    rw [show renderEntries (SEntries.cons k v rest') ++ rest
        = (' ' :: k.data ++ ['=']) ++ (renderV v ++ (renderEntries rest' ++ rest)) by
      simp [renderEntries]]
    rw [braceAux_seg hseg cnt _ hcnt]
    rw [braceV v hv cnt _ hcnt]
    rw [braceE rest' hrest cnt rest hcnt]
    simp [renderEntries]

theorem braceI : ∀ (its : SItems), goodItems its = true → ∀ cnt rest, 0 < cnt →
    braceAux cnt (renderItems its ++ rest)
      = ((renderItems its ++ (braceAux cnt rest).1, (braceAux cnt rest).2) : Txt × Txt)
  | SItems.nil, _, cnt, rest, _ => by simp [renderItems]
  | SItems.cons v rest', hits, cnt, rest, hcnt => by
    have hv : goodVal v = true := by
      simp [goodItems] at hits
      exact hits.1
    have hrest : goodItems rest' = true := by
      simp [goodItems] at hits
      exact hits.2
    have hseg : ∀ c ∈ ([' '] : Txt), ¬ (c = '{') ∧ ¬ (c = '}') := by
      intro c hc
      simp at hc
      rw [hc]
      simp
    rw [show renderItems (SItems.cons v rest') ++ rest
        = [' '] ++ (renderV v ++ (renderItems rest' ++ rest)) by simp [renderItems]]
    rw [braceAux_seg hseg cnt _ hcnt]
    rw [braceV v hv cnt _ hcnt]
    rw [braceI rest' hrest cnt rest hcnt]
    simp [renderItems]

end

/-- The brace-balanced slice taken by the extractors from a rendered block
followed by arbitrary text is exactly the rendered block. -/
theorem braceSlice {v : SVal} (hv : goodVal v = true) (hb : isBlockS v = true)
    {c0 : Char} {cs0 : Txt} (hshape : renderV v = c0 :: cs0) (tail0 : Txt) :
    '{' :: (braceAux 1 (cs0 ++ tail0)).1 = renderV v := by
  cases v with
  | atom t => simp [isBlockS] at hb
  | quoted st => simp [isBlockS] at hb
  | blockD es =>
    have hes : goodEntries es = true := by simpa [goodVal] using hv
    have h2 : renderV (SVal.blockD es) = '{' :: (renderEntries es ++ ['}']) := by
      simp [renderV]
    rw [h2] at hshape
    obtain ⟨hc, hcs⟩ := List.cons_eq_cons.mp hshape
    rw [← hcs]
    rw [show (renderEntries es ++ ['}']) ++ tail0 = renderEntries es ++ ('}' :: tail0) by
      simp]
    rw [braceE es hes 1 ('}' :: tail0) (by omega)]
    have hstep : braceAux 1 ('}' :: tail0) = ((['}'], tail0) : Txt × Txt) := by
      simp [braceAux]
    rw [hstep, h2]
  | blockL its =>
    have hits : goodItems its = true := by
      simp [goodVal] at hv
      exact hv.1
    have h2 : renderV (SVal.blockL its) = '{' :: (renderItems its ++ ['}']) := by
      simp [renderV]
    rw [h2] at hshape
    obtain ⟨hc, hcs⟩ := List.cons_eq_cons.mp hshape
    rw [← hcs]
    rw [show (renderItems its ++ ['}']) ++ tail0 = renderItems its ++ ('}' :: tail0) by
      simp]
    rw [braceI its hits 1 ('}' :: tail0) (by omega)]
    have hstep : braceAux 1 ('}' :: tail0) = ((['}'], tail0) : Txt × Txt) := by
      simp [braceAux]
    rw [hstep, h2]

/-! ## Parsing an extracted block slice (`SaveParser.parse` on a section) -/

theorem cost_pos (v : SVal) : 0 < cost v := by
  cases v <;> simp [cost]

theorem renderV_block_head {v : SVal} (hb : isBlockS v = true) :
    ∃ cs, renderV v = '{' :: cs := by
  cases v with
  | atom t => simp [isBlockS] at hb
  | quoted st => simp [isBlockS] at hb
  | blockD es => exact ⟨renderEntries es ++ ['}'], by simp [renderV]⟩
  | blockL its => exact ⟨renderItems its ++ ['}'], by simp [renderV]⟩

theorem parseList_nil (f : Nat) (hf : 0 < f) :
    parseList f [] = some (([] : List Value), []) := by
  cases f with
  | zero => omega
  | succ f => simp [parseList, skipWs, skipWsAux]

/-- `SaveParser.parse` on a rendered block slice: the block has no `key=`
at top level of the slice text (it starts with `{`), so the root-level
parse is a list parse wrapping the block in a one-element list. -/
theorem sectionParse {v : SVal} (hv : goodVal v = true) (hb : isBlockS v = true) (g : Nat) :
    parseBlockContents (g + 2 + cost v) (renderV v) = some (Value.list [denote v], []) := by
  obtain ⟨cs, hhead⟩ := renderV_block_head hb
  have hskip : skipWs (renderV v) = renderV v := by
    have := skipWs_renderV hv []
    rwa [List.append_nil] at this
  have hval : parseValue (g + cost v) (renderV v) = some (denote v, []) := by
    have := renderV_ok v hv [] (by simp [boundary]) g
    rwa [List.append_nil] at this
  have hlist : parseList (g + 1 + cost v) (renderV v) = some ([denote v], []) := by
    rw [show g + 1 + cost v = (g + cost v) + 1 by omega]
    simp only [parseList]
    rw [hskip]
    rw [if_neg (by rw [hhead]; simp)]
    rw [hval]
    simp [parseList_nil (g + cost v) (by have := cost_pos v; omega)]
  rw [show g + 2 + cost v = (g + 1 + cost v) + 1 by omega]
  simp only [parseBlockContents]
  rw [hskip]
  rw [if_neg (by rw [hhead]; simp)]
  rw [if_pos (by rw [hhead]; simp [lookIsList])]
  rw [hlist]

/-- `fast_extract_sections` on a rendered document: the extracted section
named `name` parses to the block value wrapped in a one-element list. -/
theorem fastExtract_doc (name : String) (hname : goodTok name = true)
    (pre post : SEntries) (hpre : goodEntries pre = true)
    (hck : containsKeyE pre name = false)
    {v : SVal} (hv : goodVal v = true) (hb : isBlockS v = true) (g : Nat) :
    fastExtract (g + 2 + cost v)
        (String.mk (renderDoc (appendE pre (SEntries.cons name v post)))) name
      = some (Value.list [denote v]) := by
  obtain ⟨n0, ns, hnd⟩ := goodTok_shape hname
  obtain ⟨cs, hhead⟩ := renderV_block_head hb
  have hT : renderDoc (SEntries.cons name v post)
      = (name.data ++ ['=']) ++ ('\n' :: (renderV v ++ '\n' :: renderDoc post)) := by
    simp [renderDoc]
  have hfind : findAnchor (name.data ++ ['=']) true
      (renderDoc (appendE pre (SEntries.cons name v post)))
      = some ('\n' :: (renderV v ++ '\n' :: renderDoc post)) := by
    rw [renderDoc_append]
    rw [hT]
    rw [findAnchor_pre_skip name hname pre hpre hck _]
    exact findAnchor_at _ _ n0 (ns ++ ['=']) (by rw [hnd, List.cons_append])
  have hdrop : ('\n' :: (renderV v ++ '\n' :: renderDoc post)).dropWhile isPyWs
      = renderV v ++ '\n' :: renderDoc post := by
    rw [List.dropWhile_cons]
    rw [if_pos (by simp [isPyWs])]
    rw [hhead]
    rw [List.cons_append]
    rw [List.dropWhile_cons]
    rw [if_neg (by simp [isPyWs])]
  have hsect : parseBlockContents (g + 2 + cost v)
      ('{' :: (braceAux 1 ((renderV v ++ '\n' :: renderDoc post).drop 1)).1)
      = some (Value.list [denote v], []) := by
    rw [show (renderV v ++ '\n' :: renderDoc post).drop 1
        = cs ++ ('\n' :: renderDoc post) by rw [hhead, List.cons_append]; simp]
    rw [braceSlice hv hb hhead ('\n' :: renderDoc post)]
    exact sectionParse hv hb g
  simp only [fastExtract]
  simp only [hfind, hdrop]
  rw [if_neg (by rw [hhead, List.cons_append]; simp)]
  rw [if_pos (by rw [hhead, List.cons_append]; simp)]
  rw [hsect]
  rfl

/-! ## The country-section scanner on rendered documents -/

theorem upper_ne_nl {a : Char} (h : isUpperCh a = true) : ¬ (a = '\n') := by
  intro hc
  rw [hc] at h
  simp [isUpperCh] at h

theorem tagKey_shape {k : String} (h : tagKey k = true) :
    ∃ a b c, k.data = [a, b, c] ∧ isUpperCh a = true ∧ isUpperCh b = true ∧
      isUpperCh c = true := by
  rcases ht : k.data with _ | ⟨a, _ | ⟨b, _ | ⟨c, _ | ⟨d, ds⟩⟩⟩⟩ <;>
    simp [tagKey, ht] at h
  exact ⟨a, b, c, rfl, h.1, h.2.1, h.2.2⟩

/-- A value line of the rendered document never starts a country match. -/
theorem countryShape_value_false {v : SVal} (hv : goodVal v = true) (X : Txt) :
    countryShape (renderV v ++ '\n' :: X) = false := by
  cases v with
  | atom t =>
    have hchars := goodTok_chars (by simpa [goodVal] using hv)
    simp only [renderV]
    rcases ht : t.data with _ | ⟨a, _ | ⟨b, _ | ⟨c, _ | ⟨d, ds⟩⟩⟩⟩
    · simp [countryShape, optUpper, isUpperCh]
    · simp [countryShape, optUpper, isUpperCh]
    · simp [countryShape, optUpper, isUpperCh]
    · simp [countryShape, optUpper]
    · have hd : ¬ (d = '=') := by
        have := hchars d (by rw [ht]; simp)
        exact (delim_facts this.1).2.1
      simp [countryShape, optUpper, hd]
  | quoted st =>
    simp only [renderV]
    simp [countryShape, optUpper, isUpperCh]
  | blockD es =>
    simp only [renderV]
    simp [countryShape, optUpper, isUpperCh]
  | blockL its =>
    simp only [renderV]
    simp [countryShape, optUpper, isUpperCh]

/-- At the start of a rendered entry the scanner matches exactly when the
key is a three-letter tag and the value a block. -/
theorem countryShape_entry {k : String} (hk : goodTok k = true)
    {v : SVal} (hv : goodVal v = true) (X : Txt) :
    countryShape (k.data ++ '=' :: '\n' :: (renderV v ++ '\n' :: X))
      = (tagKey k && isBlockS v) := by
  have hchars := goodTok_chars hk
  rcases ht : k.data with _ | ⟨a, _ | ⟨b, _ | ⟨c, _ | ⟨d, ds⟩⟩⟩⟩
  · exfalso
    simp [goodTok] at hk
    apply hk.1
    rw [← string_mk_data k, ht]
  · simp [countryShape, optUpper, isUpperCh, tagKey, ht]
  · simp [countryShape, optUpper, isUpperCh, tagKey, ht]
  · have hhead : decide (List.head? (renderV v) = some '{') = isBlockS v := by
      cases v with
      | atom t =>
        obtain ⟨e, es0, hsh⟩ :=
          goodTok_shape (show goodTok t = true by simpa [goodVal] using hv)
        have he : ¬ (e = '{') :=
          (delim_facts (goodTok_chars
            (show goodTok t = true by simpa [goodVal] using hv) e (by simp [hsh])).1).2.2.1
        have h2 : renderV (SVal.atom t) = e :: es0 := by simp [renderV, hsh]
        rw [h2]
        simp [isBlockS, he]
      | quoted st =>
        have h2 : renderV (SVal.quoted st) = '"' :: (st.data ++ ['"']) := by simp [renderV]
        rw [h2]
        simp [isBlockS]
      | blockD es =>
        have h2 : renderV (SVal.blockD es) = '{' :: (renderEntries es ++ ['}']) := by
          simp [renderV]
        rw [h2]
        simp [isBlockS]
      | blockL its =>
        have h2 : renderV (SVal.blockL its) = '{' :: (renderItems its ++ ['}']) := by
          simp [renderV]
        rw [h2]
        simp [isBlockS]
    simp only [countryShape, tagKey, ht]
    simp [optUpper]
    by_cases ha : isUpperCh a = true <;> by_cases hb : isUpperCh b = true <;>
      by_cases hc : isUpperCh c = true <;>
      simp [ha, hb, hc]
    exact hhead
  · have hd : ¬ (d = '=') := by
      have := hchars d (by rw [ht]; simp)
      exact (delim_facts this.1).2.1
    simp [countryShape, optUpper, tagKey, ht, hd]

theorem iterAux_false_skip (F : Nat) : ∀ (seg : Txt), (∀ c ∈ seg, ¬ (c = '\n')) →
    ∀ l, iterAux F false (seg ++ l) = iterAux F false l
  | [], _, l => rfl
  | c :: seg', h, l => by
    rw [List.cons_append, iterAux]
    rw [if_neg (by simp)]
    simp only [decide_eq_false (h c (List.mem_cons_self _ _))]
    exact iterAux_false_skip F seg' (fun x hx => h x (List.mem_cons_of_mem _ hx)) l

theorem iterAux_nl (F : Nat) (l : Txt) : iterAux F false ('\n' :: l) = iterAux F true l := by
  rw [iterAux, if_neg (by simp)]
  rfl

/-- Scanning a rendered value line yields nothing and moves to the next
line start. -/
theorem iterAux_body (F : Nat) {v : SVal} (hv : goodVal v = true) (X : Txt) :
    iterAux F true (renderV v ++ '\n' :: X) = iterAux F true X := by
  obtain ⟨c0, cs0, hrv, hws0, hh0, he0, hb0, hnl0⟩ := renderV_head_facts hv
  have hcs : countryShape (renderV v ++ '\n' :: X) = false := countryShape_value_false hv X
  rw [hrv, List.cons_append] at hcs ⊢
  rw [iterAux, if_neg (by simp [hcs])]
  simp only [decide_eq_false hnl0]
  rw [iterAux_false_skip F cs0
    (fun x hx => renderV_no_nl v hv x (by rw [hrv]; exact List.mem_cons_of_mem _ hx))
    ('\n' :: X)]
  exact iterAux_nl F X

/-- Scanning past an entry that is not a country section. -/
theorem iterAux_entry_skip (F : Nat) {k : String} (hk : goodTok k = true)
    {v : SVal} (hv : goodVal v = true)
    (hnot : (tagKey k && isBlockS v) = false) (X : Txt) :
    iterAux F true (k.data ++ '=' :: '\n' :: (renderV v ++ '\n' :: X))
      = iterAux F true X := by
  obtain ⟨c, cs, hkd⟩ := goodTok_shape hk
  have hcs : countryShape (k.data ++ '=' :: '\n' :: (renderV v ++ '\n' :: X)) = false := by
    rw [countryShape_entry hk hv X, hnot]
  rw [hkd] at hcs ⊢
  rw [List.cons_append] at hcs ⊢
  rw [iterAux, if_neg (by simp [hcs])]
  have hcnl : ¬ (c = '\n') :=
    not_nl_of_isWsCh_false (delim_facts (goodTok_chars hk c (by simp [hkd])).1).1
  simp only [decide_eq_false hcnl]
  have hseg : ∀ x ∈ cs ++ ['='], ¬ (x = '\n') := by
    intro x hx
    rcases List.mem_append.mp hx with hx | hx
    · apply goodTok_no_nl hk x
      rw [hkd]
      exact List.mem_cons_of_mem _ hx
    · simp at hx
      rw [hx]
      simp
  rw [show cs ++ '=' :: '\n' :: (renderV v ++ '\n' :: X)
      = (cs ++ ['=']) ++ ('\n' :: (renderV v ++ '\n' :: X)) by simp]
  rw [iterAux_false_skip F _ hseg _]
  rw [iterAux_nl]
  exact iterAux_body F hv X

/-- Scanning a country-section entry yields the tag with the parsed slice
and continues after the entry. -/
theorem iterAux_entry_yield (F : Nat) {k : String} (hk : goodTok k = true)
    {v : SVal} (hv : goodVal v = true) (htag : tagKey k = true)
    (hb : isBlockS v = true) (hF : 2 + cost v ≤ F) (X : Txt) :
    iterAux F true (k.data ++ '=' :: '\n' :: (renderV v ++ '\n' :: X))
      = (k, some (Value.list [denote v])) :: iterAux F true X := by
  obtain ⟨a, b, c, hkd, ha, hbu, hcu⟩ := tagKey_shape htag
  obtain ⟨cs0, hhead⟩ := renderV_block_head hb
  have hcs : countryShape (k.data ++ '=' :: '\n' :: (renderV v ++ '\n' :: X)) = true := by
    rw [countryShape_entry hk hv X, htag, hb]
    rfl
  have hbridge : k.data ++ '=' :: '\n' :: (renderV v ++ '\n' :: X)
      = a :: (b :: c :: '=' :: '\n' :: (renderV v ++ '\n' :: X)) := by
    rw [hkd]
    rfl
  rw [hbridge] at hcs ⊢
  rw [iterAux, if_pos ⟨rfl, hcs⟩]
  have hdrop5 : (b :: c :: '=' :: '\n' :: (renderV v ++ '\n' :: X)).drop 5
      = cs0 ++ ('\n' :: X) := by
    rw [hhead, List.cons_append]
    rfl
  have htake : String.mk ((a :: (b :: c :: '=' :: '\n' :: (renderV v ++ '\n' :: X))).take 3)
      = k := by
    rw [show (a :: (b :: c :: '=' :: '\n' :: (renderV v ++ '\n' :: X))).take 3
        = [a, b, c] from rfl, ← hkd, string_mk_data]
  have hparse : (parseBlockContents F
      ('{' :: (braceAux 1 ((b :: c :: '=' :: '\n' :: (renderV v ++ '\n' :: X)).drop 5)).1)).map
        (fun p => p.1) = some (Value.list [denote v]) := by
    rw [hdrop5, braceSlice hv hb hhead ('\n' :: X)]
    rw [show F = (F - (2 + cost v)) + 2 + cost v by omega]
    rw [sectionParse hv hb (F - (2 + cost v))]
    rfl
  rw [htake]
  simp only [hparse]
  have hanl : ¬ (a = '\n') := upper_ne_nl ha
  simp only [decide_eq_false hanl]
  have hseg : ∀ x ∈ [b, c, '='], ¬ (x = '\n') := by
    intro x hx
    rcases List.mem_cons.mp hx with hx | hx
    · rw [hx]; exact upper_ne_nl hbu
    rcases List.mem_cons.mp hx with hx | hx
    · rw [hx]; exact upper_ne_nl hcu
    · simp at hx
      rw [hx]
      simp
  rw [show b :: c :: '=' :: '\n' :: (renderV v ++ '\n' :: X)
      = [b, c, '='] ++ ('\n' :: (renderV v ++ '\n' :: X)) from rfl]
  rw [iterAux_false_skip F _ hseg _]
  rw [iterAux_nl]
  rw [iterAux_body F hv X]

/-- `iterate_country_sections` over a rendered document yields exactly the
tag-keyed block entries, each parsed into a one-element list. -/
theorem iterDoc : ∀ (es : SEntries), goodEntries es = true →
    ∀ F : Nat, docCostE es ≤ F →
    iterAux F true (renderDoc es) = (tagSections es).map (fun p => (p.1, some p.2))
  | SEntries.nil, _, F, _ => rfl
  | SEntries.cons k v rest, hes, F, hF => by
    have hk : goodTok k = true := by
      simp [goodEntries] at hes
      exact hes.1
    have hv : goodVal v = true := by
      simp [goodEntries] at hes
      exact hes.2.1
    have hrest : goodEntries rest = true := by
      simp [goodEntries] at hes
      exact hes.2.2
    have hFr : docCostE rest ≤ F := by
      simp [docCostE] at hF
      omega
    have hbridge : renderDoc (SEntries.cons k v rest)
        = k.data ++ '=' :: '\n' :: (renderV v ++ '\n' :: renderDoc rest) := by
      simp [renderDoc]
    rw [hbridge]
    cases htag : (tagKey k && isBlockS v) with
    | false =>
      rw [iterAux_entry_skip F hk hv htag (renderDoc rest)]
      rw [iterDoc rest hrest F hFr]
      have hcond : ¬ (tagKey k = true ∧ isBlockS v = true) := by
        intro hcon
        rw [hcon.1, hcon.2] at htag
        cases htag
      rw [show tagSections (SEntries.cons k v rest) = tagSections rest by
        rw [tagSections, if_neg hcond]]
    | true =>
      have h1 : tagKey k = true := by
        cases h : tagKey k with
        | false => rw [h] at htag; cases htag
        | true => rfl
      have h2 : isBlockS v = true := by
        cases h : isBlockS v with
        | false => rw [h] at htag; simp at htag
        | true => rfl
      have hFv : 2 + cost v ≤ F := by
        simp [docCostE] at hF
        omega
      rw [iterAux_entry_yield F hk hv h1 h2 hFv (renderDoc rest)]
      rw [iterDoc rest hrest F hFr]
      rw [show tagSections (SEntries.cons k v rest)
          = (k, Value.list [denote v]) :: tagSections rest by
        rw [tagSections, if_pos ⟨h1, h2⟩]]
      rfl

/-! ## The claims -/

/-- C2: the specification claims that `parse_document` terminates and
returns a Mapping or Sequence for every input text.  It does not: on the
text `a a =`, `_parse_list` calls `_parse_value`, which reads an empty
token without advancing past the `=`, and the loop repeats forever at the
same position.  In the fuel-indexed embedding, no amount of fuel makes the
parse finish. -/
theorem C2_parse_document_diverges :
    ∀ f : Nat, parseDocument f (String.mk ['a', ' ', 'a', ' ', '=']) = none := by
  intro f
  rw [parseDocument]
  rw [show (String.mk ['a', ' ', 'a', ' ', '=']).data = ['a', ' ', 'a', ' ', '='] from rfl]
  rw [divergeContents f]
  rfl

/-- C5: the duplicate-key merge of `_parse_dict` per pair: a new key is
inserted; a key whose current value is a Sequence has the new value
appended; a key whose current value is a single value is replaced by the
two-element Sequence of old and new value; and parsing `k=1 k=2 k=3`
yields the Mapping with `k` bound to the Sequence `[1, 2, 3]`. -/
theorem C5_merge_rule :
    (∀ (acc : List (String × Value)) (k : String) (v : Value), lookupD acc k = none →
        insertDict acc k v = acc ++ [(k, v)] ∧ lookupD (insertDict acc k v) k = some v)
    ∧ (∀ (acc : List (String × Value)) (k : String) (v : Value) (ws : List Value),
        lookupD acc k = some (Value.list ws) →
        lookupD (insertDict acc k v) k = some (Value.list (ws ++ [v])))
    ∧ (∀ (acc : List (String × Value)) (k : String) (v w : Value),
        lookupD acc k = some w → isSeq w = false →
        lookupD (insertDict acc k v) k = some (Value.list [w, v]))
    ∧ parseDocument 40 "k=1 k=2 k=3"
        = some (Value.dict [("k", Value.list [Value.int 1, Value.int 2, Value.int 3])]) := by
  refine ⟨?_, ?_, ?_, rfl⟩
  · intro acc k v h
    refine ⟨insertDict_absent h v, ?_⟩
    rw [insertDict_absent h v, lookupD_append_right h]
    simp [lookupD]
  · intro acc k v ws h
    have := lookupD_insertDict_merge h v
    simpa [valueMerge] using this
  · intro acc k v w h hw
    have := lookupD_insertDict_merge h v
    rw [this]
    cases w with
    | str st => rfl
    | int n => rfl
    | float q => rfl
    | bool b => rfl
    | dict d => rfl
    | list xs => simp [isSeq] at hw

theorem C5_witness :
    lookupD (insertDict [] "k" (Value.int 1)) "k" = some (Value.int 1)
    ∧ lookupD (insertDict [("k", Value.list [Value.int 1])] "k" (Value.int 2)) "k"
        = some (Value.list [Value.int 1, Value.int 2])
    ∧ lookupD (insertDict [("k", Value.int 1)] "k" (Value.int 2)) "k"
        = some (Value.list [Value.int 1, Value.int 2]) :=
  ⟨(C5_merge_rule.1 [] "k" (Value.int 1) rfl).2,
   C5_merge_rule.2.1 [("k", Value.list [Value.int 1])] "k" (Value.int 2) [Value.int 1] rfl,
   C5_merge_rule.2.2.1 [("k", Value.int 1)] "k" (Value.int 2) (Value.int 1) rfl rfl⟩

/-- C6: block disambiguation: `{ a=1 b=2 }` parses as a Mapping,
`{ 1 2 3 }` and `{ "x" "y" }` as Sequences,
`{ {a=1} {a=2} }` as a Sequence of two Mappings, and an
empty block -- closed or running to end of input -- as an empty Mapping. -/
theorem C6_disambiguation :
    parseValue 40 ("\x7b a=1 b=2 \x7d".data)
        = some (Value.dict [("a", Value.int 1), ("b", Value.int 2)], [])
    ∧ parseValue 40 ("\x7b 1 2 3 \x7d".data)
        = some (Value.list [Value.int 1, Value.int 2, Value.int 3], [])
    ∧ parseValue 40 ("\x7b \"x\" \"y\" \x7d".data)
        = some (Value.list [Value.str "x", Value.str "y"], [])
    ∧ parseValue 40 ("\x7b \x7ba=1\x7d \x7ba=2\x7d \x7d".data)
        = some (Value.list [Value.dict [("a", Value.int 1)],
            Value.dict [("a", Value.int 2)]], [])
    ∧ parseValue 40 ("\x7b\x7d".data) = some (Value.dict [], [])
    ∧ parseValue 40 ("\x7b".data) = some (Value.dict [], []) :=
  ⟨rfl, rfl, rfl, rfl, rfl, rfl⟩

/-- C7: scalar classification of bare tokens: `100` is the integer 100,
`100.5` the float 100.5, `yes` and `no` the booleans, and a word such as
`London` falls through to text. -/
theorem C7_scalars :
    classify "100" = Value.int 100
    ∧ classify "100.5" = Value.float ((201 : Rat) / 2)
    ∧ classify "yes" = Value.bool true
    ∧ classify "no" = Value.bool false
    ∧ classify "London" = Value.str "London" := by
  refine ⟨rfl, ?_, rfl, rfl, rfl⟩
  have h : classify "100.5" = Value.float
      ((natOfDigits (['1', '0', '0'] ++ ['5']) : Rat)
        * ratPow10 (0 - (['5'].length : Int))) := rfl
  rw [h]
  norm_num [natOfDigits, show digitVal '1' = 1 from rfl, show digitVal '0' = 0 from rfl,
    show digitVal '5' = 5 from rfl, ratPow10]

/-- C10 (corrected): a trailing `key=` at end of input yields the key
bound to the empty text scalar -- but only when the trailing pair is in
dict context.  The theorem states the corrected claim over rendered
documents followed by `key=`; `C10_cex` refutes the universal original
(on `}a=` the pair is dropped). -/
theorem C10_trailing_eq (es : SEntries) (hes : goodEntries es = true)
    (k : String) (hk : goodTok k = true) (hck : containsKeyE es k = false) (g : Nat) :
    parseDocument (g + docCostE es + 3) (String.mk (renderDoc es ++ (k.data ++ ['='])))
      = some (Value.dict (denoteEntries [] es ++ [(k, Value.str "")]))
    ∧ lookupD (denoteEntries [] es ++ [(k, Value.str "")]) k = some (Value.str "") := by
  have hlk : lookupD (denoteEntries [] es) k = none := by
    rw [lookupD_denoteEntries_absent es hck]
    rfl
  constructor
  · have htail : ∀ (acc : List (String × Value)) (h : Nat),
        parseDict (h + 2) (k.data ++ ['=']) acc
          = some (insertDict acc k (Value.str ""), ([] : Txt)) := by
      intro acc h
      exact tail_trailingEq hk acc h
    have := parseDocument_render htail es hes (doc_key_exists_tail es hes hk []) g
    rw [show g + docCostE es + 3 = g + docCostE es + 2 + 1 by omega]
    rw [this]
    rw [insertDict_absent hlk]
  · rw [lookupD_append_right hlk]
    simp [lookupD]

theorem C10_witness :
    parseDocument 4 (String.mk (renderDoc SEntries.nil ++ ("a".data ++ ['='])))
      = some (Value.dict [("a", Value.str "")]) :=
  (C10_trailing_eq SEntries.nil rfl "a" rfl rfl 0).1

/-- C10 counterexample to the original universal claim: the text `}a=`
ends with `a=` at end of input, yet the parse returns the empty Mapping --
the stray `}` makes the root look like an empty block and the trailing
pair is dropped, not bound to `""`. -/
theorem C10_cex :
    parseDocument 30 (String.mk ['\x7d', 'a', '=']) = some (Value.dict [])
    ∧ lookupD [] "a" = none :=
  ⟨rfl, rfl⟩

/-- C8: truncation tolerance.  A rendered document followed by an
unterminated quoted string (`key="chars…` to end of input) or by an
unterminated block (`key=\x7bentries…` with the closing brace missing)
still parses; all sibling entries before the anomaly are preserved
unchanged, and the collected characters of the unterminated string are
kept as its value. -/
theorem C8_truncation_tolerant (es : SEntries) (hes : goodEntries es = true)
    (k : String) (hk : goodTok k = true) (st : String) (hs : goodStr st = true)
    (hck : containsKeyE es k = false)
    (k2 : String) (hk2 : goodTok k2 = true) (es2 : SEntries)
    (hes2 : goodEntries es2 = true) (hck2 : containsKeyE es k2 = false) (g : Nat) :
    parseDocument (g + docCostE es + 4)
        (String.mk (renderDoc es ++ (k.data ++ '=' :: '"' :: st.data)))
      = some (Value.dict (denoteEntries [] es ++ [(k, Value.str st)]))
    ∧ parseDocument (g + docCostE es + costEntries es2 + 5)
        (String.mk (renderDoc es ++ (k2.data ++ '=' :: '{' :: renderEntries es2)))
      = some (Value.dict (denoteEntries [] es
          ++ [(k2, Value.dict (denoteEntries [] es2))])) := by
  constructor
  · have hlk : lookupD (denoteEntries [] es) k = none := by
      rw [lookupD_denoteEntries_absent es hck]
      rfl
    have htail : ∀ (acc : List (String × Value)) (h : Nat),
        parseDict (h + 3) (k.data ++ '=' :: '"' :: st.data) acc
          = some (insertDict acc k (Value.str st), ([] : Txt)) := by
      intro acc h
      exact tail_unterminatedStr hk hs acc h
    have := parseDocument_render htail es hes
      (doc_key_exists_tail es hes hk ('"' :: st.data)) g
    rw [show g + docCostE es + 4 = g + docCostE es + 3 + 1 by omega]
    rw [this]
    rw [insertDict_absent hlk]
  · have hlk2 : lookupD (denoteEntries [] es) k2 = none := by
      rw [lookupD_denoteEntries_absent es hck2]
      rfl
    have htail : ∀ (acc : List (String × Value)) (h : Nat),
        parseDict (h + (4 + costEntries es2)) (k2.data ++ '=' :: '{' :: renderEntries es2) acc
          = some (insertDict acc k2 (Value.dict (denoteEntries [] es2)), ([] : Txt)) := by
      intro acc h
      have := tail_unterminatedBlock hk2 hes2 acc h
      rw [show h + 4 + costEntries es2 = h + (4 + costEntries es2) by omega] at this
      exact this
    have := parseDocument_render htail es hes
      (doc_key_exists_tail es hes hk2 ('{' :: renderEntries es2)) g
    rw [show g + docCostE es + costEntries es2 + 5
        = g + docCostE es + (4 + costEntries es2) + 1 by omega]
    rw [this]
    rw [insertDict_absent hlk2]

theorem C8_witness :
    parseDocument 10 (String.mk (renderDoc (SEntries.cons "b" (SVal.atom "1") SEntries.nil)
        ++ ("a".data ++ '=' :: '"' :: "x".data)))
      = some (Value.dict [("b", Value.int 1), ("a", Value.str "x")]) :=
  (C8_truncation_tolerant (SEntries.cons "b" (SVal.atom "1") SEntries.nil) rfl
    "a" rfl "x" rfl rfl "c" rfl SEntries.nil rfl rfl 0).1

/-- C4 (corrected): every Mapping the dict builder produces has pairwise
distinct keys, and a key occurring `n ≥ 2` times among the raw pairs of
its block ends bound to the Sequence of all `n` values in encounter order
-- provided the first value for the key is not itself a Sequence.  (When
it is, the merge flattens into it; `C4_cex` refutes the unconditional
original claim.) -/
theorem C4_mapping_invariant (f : Nat) (l : Txt) (ps : List (String × Value)) (r : Txt)
    (hp : parsePairs f l = some (ps, r)) :
    parseDict f l [] = some (insertPairs [] ps, r)
    ∧ (keysOf (insertPairs [] ps)).Nodup
    ∧ (∀ k, 2 ≤ countKey ps k → (∀ w, lookupD ps k = some w → isSeq w = false) →
        lookupD (insertPairs [] ps) k = some (Value.list (valsK ps k))) := by
  refine ⟨?_, ?_, ?_⟩
  · rw [parseDict_eq_pairs, hp]
    rfl
  · exact insertPairs_nodup ps [] (by simp [keysOf])
  · intro k h2 hfst
    exact (insertPairs_law ps k).2.2 h2 hfst

theorem C4_witness :
    parseDict 20 ("k=1 k=2".data) []
        = some ([("k", Value.list [Value.int 1, Value.int 2])], [])
    ∧ lookupD (insertPairs [] [("k", Value.int 1), ("k", Value.int 2)]) "k"
        = some (Value.list [Value.int 1, Value.int 2]) := by
  have h := C4_mapping_invariant 20 ("k=1 k=2".data)
    [("k", Value.int 1), ("k", Value.int 2)] [] rfl
  refine ⟨h.1, ?_⟩
  have h3 := h.2.2 "k" (by decide) (fun w hw => by
    have hw1 : Value.int 1 = w := by simpa [lookupD] using hw
    rw [← hw1]
    rfl)
  exact h3

/-- C4 counterexample to the unconditional original claim: in
`k=\x7b 1 2 \x7d k=3` the key `k` occurs twice with values `[1, 2]` and
`3`, so the claimed final entry is the Sequence of the values seen,
`[[1, 2], 3]`; the merge instead appends into the first Sequence, giving
the flattened `[1, 2, 3]`. -/
theorem C4_cex :
    parseDocument 40 "k=\x7b 1 2 \x7d k=3"
      = some (Value.dict [("k", Value.list [Value.int 1, Value.int 2, Value.int 3])])
    ∧ ¬ (Value.list [Value.int 1, Value.int 2, Value.int 3]
          = Value.list [Value.list [Value.int 1, Value.int 2], Value.int 3]) := by
  refine ⟨rfl, ?_⟩
  simp

theorem goodEntries_append : ∀ (a b : SEntries),
    goodEntries (appendE a b) = (goodEntries a && goodEntries b)
  | SEntries.nil, b => by simp [appendE, goodEntries]
  | SEntries.cons k v rest, b => by
    simp [appendE, goodEntries, goodEntries_append rest b]
    cases goodTok k <;> cases goodVal v <;> cases goodEntries rest <;>
      cases goodEntries b <;> simp

theorem appendE_cons_ne_nil (pre : SEntries) (k : String) (v : SVal) (rest : SEntries) :
    ¬ (appendE pre (SEntries.cons k v rest) = SEntries.nil) := by
  cases pre with
  | nil =>
    rw [appendE]
    intro h
    cases h
  | cons k0 v0 r0 =>
    rw [appendE]
    intro h
    cases h

/-- C1 (corrected): for a rendered document with a unique top-level
section `name=\x7b…\x7d`, the full parse stores the section's Value under
`name`, while `extract_named_section` returns that Value wrapped in a
ONE-ELEMENT Sequence -- `SaveParser.parse` treats the extracted slice
(which starts with `\x7b`) as a list of one block.  The two agree only up
to this wrapping; `C1_cex` refutes the claimed plain equality. -/
theorem C1_extract_wrapped (name : String) (hname : goodTok name = true)
    (v : SVal) (hv : goodVal v = true) (hb : isBlockS v = true)
    (pre post : SEntries) (hpre : goodEntries pre = true) (hpost : goodEntries post = true)
    (hck : containsKeyE pre name = false) (hckp : containsKeyE post name = false)
    (g1 g2 : Nat) :
    lookupD (denoteEntries [] (appendE pre (SEntries.cons name v post))) name
        = some (denote v)
    ∧ parseDocument (g2 + docCostE (appendE pre (SEntries.cons name v post)) + 2)
        (String.mk (renderDoc (appendE pre (SEntries.cons name v post))))
        = some (Value.dict (denoteEntries [] (appendE pre (SEntries.cons name v post))))
    ∧ fastExtract (g1 + 2 + cost v)
        (String.mk (renderDoc (appendE pre (SEntries.cons name v post)))) name
        = some (Value.list [denote v]) := by
  refine ⟨lookupD_doc pre post name v hck hckp, ?_, ?_⟩
  · apply parseDocument_renderDoc
    · rw [goodEntries_append]
      simp [goodEntries, hpre, hpost, hname, hv]
    · exact appendE_cons_ne_nil pre name v post
  · exact fastExtract_doc name hname pre post hpre hck hv hb g1

theorem C1_witness :
    fastExtract 8 (String.mk (renderDoc (SEntries.cons "name"
        (SVal.blockD (SEntries.cons "a" (SVal.atom "1") SEntries.nil)) SEntries.nil))) "name"
      = some (Value.list [Value.dict [("a", Value.int 1)]]) :=
  (C1_extract_wrapped "name" rfl
    (SVal.blockD (SEntries.cons "a" (SVal.atom "1") SEntries.nil)) rfl rfl
    SEntries.nil SEntries.nil rfl rfl rfl rfl 0 0).2.2

/-- C1 counterexample to the claimed plain equality: on
`name=\x7b a=1 \x7d` the extractor returns the one-element Sequence
`[\x7ba: 1\x7d]` while the full parse stores the Mapping `\x7ba: 1\x7d`
under `name`; the two Values differ. -/
theorem C1_cex :
    fastExtract 40 "name=\x7b a=1 \x7d" "name"
        = some (Value.list [Value.dict [("a", Value.int 1)]])
    ∧ parseDocument 40 "name=\x7b a=1 \x7d"
        = some (Value.dict [("name", Value.dict [("a", Value.int 1)])])
    ∧ ¬ (Value.list [Value.dict [("a", Value.int 1)]] = Value.dict [("a", Value.int 1)]) := by
  refine ⟨rfl, rfl, ?_⟩
  simp

theorem iterAux_no_nl (F : Nat) : ∀ (t : Txt), (∀ c ∈ t, ¬ (c = '\n')) → ∀ b : Bool,
    iterAux F b t = []
  | [], _, _ => rfl
  | x :: xs, h, b => by
    have hshape : countryShape (x :: xs) = false := by
      cases hc : countryShape (x :: xs) with
      | false => rfl
      | true =>
        exfalso
        simp [countryShape] at hc
        have h4 : xs[3]? = some '\n' := hc.2.2.2.2.1
        have hmem : '\n' ∈ xs := List.getElem?_mem h4
        exact h '\n' (List.mem_cons_of_mem _ hmem) rfl
    rw [iterAux, if_neg (by simp [hshape])]
    exact iterAux_no_nl F xs (fun c hc => h c (List.mem_cons_of_mem _ hc)) _

/-- C9: the country iterator matches only the exact layout `TAG=` at a
line start with the `\x7b` opening the next line.  Any text without a
newline -- in particular a record written inline as `ENG=\x7b…\x7d` --
yields nothing, and the two-line form of the same record yields its
(tag, value) pair. -/
theorem C9_layout (F : Nat) :
    (∀ t : Txt, (∀ c ∈ t, ¬ (c = '\n')) → iterAux F true t = [])
    ∧ iterCountry F "ENG=\x7b a=1 \x7d" = []
    ∧ iterCountry 20 "ENG=\n\x7b a=1 \x7d"
        = [("ENG", some (Value.list [Value.dict [("a", Value.int 1)]]))] := by
  refine ⟨?_, ?_, rfl⟩
  · intro t ht
    exact iterAux_no_nl F t ht true
  · exact iterAux_no_nl F ("ENG=\x7b a=1 \x7d".data) (by decide) true

theorem C9_witness : iterAux 5 true ("ENG=\x7b a=1 \x7d".data) = [] :=
  (C9_layout 5).1 ("ENG=\x7b a=1 \x7d".data) (by decide)

theorem tagSections_key_mem : ∀ (es : SEntries) (k : String) (w : Value),
    (k, w) ∈ tagSections es → k ∈ entryKeys es
  | SEntries.nil, k, w, h => by simp [tagSections] at h
  | SEntries.cons k0 v0 rest, k, w, h => by
    rw [tagSections] at h
    by_cases hc : tagKey k0 = true ∧ isBlockS v0 = true
    · rw [if_pos hc] at h
      rcases List.mem_cons.mp h with h | h
      · simp [entryKeys]
        exact Or.inl (congrArg Prod.fst h)
      · simp [entryKeys]
        exact Or.inr (tagSections_key_mem rest k w h)
    · rw [if_neg hc] at h
      simp [entryKeys]
      exact Or.inr (tagSections_key_mem rest k w h)

theorem tagSections_lookup : ∀ (es : SEntries), (entryKeys es).Nodup →
    ∀ (k : String) (w : Value), (k, w) ∈ tagSections es →
    ∃ u, lookupD (denotePairs es) k = some u ∧ w = Value.list [u]
  | SEntries.nil, _, k, w, h => by simp [tagSections] at h
  | SEntries.cons k0 v0 rest, hnd, k, w, h => by
    have hnd' : (entryKeys rest).Nodup := by
      simp [entryKeys, List.nodup_cons] at hnd
      exact hnd.2
    have hk0notin : ¬ k0 ∈ entryKeys rest := by
      simp [entryKeys, List.nodup_cons] at hnd
      exact hnd.1
    rw [tagSections] at h
    by_cases hc : tagKey k0 = true ∧ isBlockS v0 = true
    · rw [if_pos hc] at h
      rcases List.mem_cons.mp h with h | h
      · have h1 : k = k0 := congrArg Prod.fst h
        have h2 : w = Value.list [denote v0] := congrArg Prod.snd h
        refine ⟨denote v0, ?_, h2⟩
        rw [denotePairs, lookupD, if_pos h1.symm]
      · have hkmem := tagSections_key_mem rest k w h
        have hne : ¬ (k0 = k) := fun hc2 => hk0notin (hc2 ▸ hkmem)
        obtain ⟨u, hu, hw⟩ := tagSections_lookup rest hnd' k w h
        refine ⟨u, ?_, hw⟩
        rw [denotePairs, lookupD, if_neg hne]
        exact hu
    · rw [if_neg hc] at h
      have hkmem := tagSections_key_mem rest k w h
      have hne : ¬ (k0 = k) := fun hc2 => hk0notin (hc2 ▸ hkmem)
      obtain ⟨u, hu, hw⟩ := tagSections_lookup rest hnd' k w h
      refine ⟨u, ?_, hw⟩
      rw [denotePairs, lookupD, if_neg hne]
      exact hu

/-- C3 (corrected): on a rendered document with distinct top-level keys,
the country iterator yields exactly the tag-keyed block entries in
document order -- but each yielded Value is the full parse's entry for
that tag wrapped in a ONE-ELEMENT Sequence, not the entry itself
(`SaveParser.parse` on the extracted slice wraps it, as for C1);
`C3_cex` refutes the claimed plain equality of the pairs. -/
theorem C3_iterate_vs_parse (es : SEntries) (hes : goodEntries es = true)
    (hnd : (entryKeys es).Nodup) (F : Nat) (hF : docCostE es ≤ F) :
    iterCountry F (String.mk (renderDoc es))
        = (tagSections es).map (fun p => (p.1, some p.2))
    ∧ ∀ (k : String) (w : Value), (k, w) ∈ tagSections es →
        ∃ u, lookupD (denoteEntries [] es) k = some u ∧ w = Value.list [u] := by
  constructor
  · exact iterDoc es hes F hF
  · intro k w h
    rw [denoteEntries_nodup es [] hnd (by simp [keysOf])]
    simpa using tagSections_lookup es hnd k w h

theorem C3_witness :
    iterCountry 20 (String.mk (renderDoc (SEntries.cons "ENG"
        (SVal.blockD (SEntries.cons "a" (SVal.atom "1") SEntries.nil))
        (SEntries.cons "b" (SVal.atom "2") SEntries.nil))))
      = [("ENG", some (Value.list [Value.dict [("a", Value.int 1)]]))] :=
  (C3_iterate_vs_parse (SEntries.cons "ENG"
      (SVal.blockD (SEntries.cons "a" (SVal.atom "1") SEntries.nil))
      (SEntries.cons "b" (SVal.atom "2") SEntries.nil)) rfl (by decide) 20 (by decide)).1

/-- C3 counterexample to the claimed plain equality: on the two-line
record `ENG=` / `\x7b a=1 \x7d` the iterator yields
`("ENG", [\x7ba: 1\x7d])` while the full parse's top-level entry for
`ENG` is the Mapping `\x7ba: 1\x7d`; the pairs differ. -/
theorem C3_cex :
    iterCountry 40 "ENG=\n\x7b a=1 \x7d"
        = [("ENG", some (Value.list [Value.dict [("a", Value.int 1)]]))]
    ∧ parseDocument 40 "ENG=\n\x7b a=1 \x7d"
        = some (Value.dict [("ENG", Value.dict [("a", Value.int 1)])])
    ∧ ¬ (Value.list [Value.dict [("a", Value.int 1)]] = Value.dict [("a", Value.int 1)]) := by
  refine ⟨rfl, rfl, ?_⟩
  simp

end V2
